import Mathlib

set_option maxRecDepth 20000

/-!
# Verification of the `orderedheaders` header model, parser, validator and
# folding serializer

This development shallowly embeds the Go package `orderedheaders`
(header.go, reader.go, generate.go) in Lean 4 and proves properties of the
embedding.

Modelling conventions:

* Go strings are byte strings; we model them as `List Nat`, one entry per
  byte (each entry is the byte value, `0 ≤ b ≤ 255` for inputs coming from
  real strings; the definitions are total on all of `Nat`).
* `orderedheaders` delegates to external collaborators (`net/mail` address
  and date parsers, `mime` word encoding).  These are passed in as an
  explicit `Oracles` record of functions; the control flow around them is
  translated from the source.
* `textproto.CanonicalMIMEHeaderKey` is Go standard library code, not part
  of this repository; it is modelled from the spec (see `canonicalKey`).
* The `regexp` patterns of generate.go and header.go are modelled by a small
  executable backtracking matcher (`Re`, `runs`) over the literal pattern
  from the source.
-/

namespace OrderedHeaders

/-- Convert an ASCII string literal to its list of bytes.  Only used to
write byte-string constants readably; all constants below are ASCII, where
`Char.toNat` is the byte value. -/
def str (s : String) : List Nat := s.toList.map Char.toNat

/-- The four whitespace bytes recognized by the token scanner of
`writeHeader` (`' '`, `'\t'`, `'\v'`, `'\f'`, generate.go line 386). -/
def wsB (b : Nat) : Bool := b == 32 || b == 9 || b == 11 || b == 12

/-- CR or LF. -/
def crlfB (b : Nat) : Bool := b == 13 || b == 10

/-- The six ASCII whitespace bytes trimmed by Go's `strings.TrimSpace`
(`"\t\n\v\f\r "`).  `TrimSpace` additionally trims the non-ASCII Unicode
spaces U+0085, U+00A0 and the Zs class, which are multi-byte sequences in a
Go string; every property proved below is insensitive to how much leading
and trailing whitespace is removed, so the ASCII trim is used. -/
def asciiSpaceB (b : Nat) : Bool :=
  b == 9 || b == 10 || b == 11 || b == 12 || b == 13 || b == 32

/-- `strings.TrimSpace` on byte strings (ASCII part, see `asciiSpaceB`). -/
def trimBytes (v : List Nat) : List Nat :=
  ((v.dropWhile asciiSpaceB).reverse.dropWhile asciiSpaceB).reverse

/-- `isAscii` from generate.go: every byte is at most 127. -/
def isAscii (v : List Nat) : Bool := v.all (· ≤ 127)

/-- Modelled from the spec: `textproto.CanonicalMIMEHeaderKey` is Go
standard library code, external to this repository.  The spec (§6) gives
its contract as "hyphen-separated words, first letter of each capitalized,
remainder lowercase".  `canonicalKey.go` walks the bytes carrying an
`upper` flag that is set at the start and after each `'-'` (45). -/
def canonicalKey.go (upper : Bool) : List Nat → List Nat
  | [] => []
  | b :: rest =>
    let b' := if upper then (if 97 ≤ b ∧ b ≤ 122 then b - 32 else b)
              else (if 65 ≤ b ∧ b ≤ 90 then b + 32 else b)
    b' :: canonicalKey.go (b' == 45) rest

/-- Modelled from the spec: canonicalization of a header key. -/
def canonicalKey (k : List Nat) : List Nat := canonicalKey.go true k

/-- A single header entry (`KV` from header.go). -/
structure KV where
  key : List Nat
  value : List Nat
  deriving Repr, DecidableEq

/-- A MIME-style header: an ordered list of key/value pairs
(`Header` from header.go). -/
structure Header where
  headers : List KV
  deriving Repr, DecidableEq

/-- `Header.Add` from header.go: canonicalize the key and append. -/
def Header.add (h : Header) (key value : List Nat) : Header :=
  ⟨h.headers ++ [⟨canonicalKey key, value⟩]⟩

/-- `Header.Get` from header.go: first value for the canonical key, or
empty if absent. -/
def Header.get (h : Header) (key : List Nat) : List Nat :=
  match h.headers.find? (fun kv => kv.key == canonicalKey key) with
  | some kv => kv.value
  | none => []

/-- `Header.Has` from header.go. -/
def Header.has (h : Header) (key : List Nat) : Bool :=
  (h.headers.find? (fun kv => kv.key == canonicalKey key)).isSome

/-- `Header.RemoveAll` from header.go: drop every entry with the
canonicalized key, keeping the rest in order. -/
def Header.removeAll (h : Header) (key : List Nat) : Header :=
  ⟨h.headers.filter (fun kv => kv.key ≠ canonicalKey key)⟩

/-! ## Reader (reader.go `ReadHeader`)

`ReadHeader` consumes logical lines from a `textproto.Reader`
(`ReadContinuedLineBytes`, an external collaborator that joins folded
lines and yields an empty slice at a blank line or stream end).  We model
the collaborator as a list of `(line, optional stream error)` results, one
per call; an exhausted list is a stream end with no error. -/

/-- Errors returned by `ReadHeader`: a malformed line (no colon) carrying
the offending line, or a propagated stream error of opaque type `ε`. -/
inductive ReadErr (ε : Type) where
  | malformed (line : List Nat)
  | stream (e : ε)
  deriving Repr, DecidableEq

/-- Trailing-space trim of the key text (the `endKey` loop of reader.go:
back up over `' '` bytes only). -/
def dropTrailingSpaces (k : List Nat) : List Nat :=
  (k.reverse.dropWhile (· == 32)).reverse

/-- `ReadHeader` from reader.go, accumulator form.  `m` is the header
built so far. -/
def readHeaderLoop {ε : Type} (m : Header) :
    List (List Nat × Option ε) → Header × Option (ReadErr ε)
  | [] => (m, none)
  | (kv, e) :: rest =>
    if kv.isEmpty then (m, e.map .stream)
    else
      match kv.findIdx? (· == 58) with
      | none => (m, some (.malformed kv))
      | some i =>
        let key := canonicalKey (dropTrailingSpaces (kv.take i))
        if key.isEmpty then readHeaderLoop m rest
        else
          let value := (kv.drop (i + 1)).dropWhile (fun b => b == 32 || b == 9)
          let m' := m.add key value
          match e with
          | some err => (m', some (.stream err))
          | none => readHeaderLoop m' rest

/-- `ReadHeader` from reader.go. -/
def readHeader {ε : Type} (src : List (List Nat × Option ε)) :
    Header × Option (ReadErr ε) :=
  readHeaderLoop ⟨[]⟩ src

/-! ## Normalize (header.go)

`Normalize` replaces every maximal run matching `[\s\p{Zs}]+` with a
single space and then applies `strings.TrimSpace`, per value.  The regexp
and `TrimSpace` operate on runes, so for this operation values are read as
lists of Unicode code points (for ASCII values this coincides with the
byte reading used elsewhere). -/

/-- The Unicode Zs (space separator) code points, `\p{Zs}`. -/
def zsCp (c : Nat) : Bool :=
  c == 0x20 || c == 0xA0 || c == 0x1680 ||
  (decide (0x2000 ≤ c) && decide (c ≤ 0x200A)) ||
  c == 0x202F || c == 0x205F || c == 0x3000

/-- The character class `[\s\p{Zs}]` of `whitespaceRe` (header.go).  RE2's
`\s` is `[\t\n\f\r ]` — it does not include vertical tab (0x0B). -/
def wsClassCp (c : Nat) : Bool :=
  c == 9 || c == 10 || c == 12 || c == 13 || c == 32 || zsCp c

/-- `unicode.IsSpace`, the class trimmed by `strings.TrimSpace`:
`\t \n \v \f \r ' '` U+0085 U+00A0 U+1680 U+2000–U+200A U+2028 U+2029
U+202F U+205F U+3000. -/
def goIsSpace (c : Nat) : Bool :=
  (decide (9 ≤ c) && decide (c ≤ 13)) || c == 32 || c == 0x85 || c == 0xA0 ||
  c == 0x1680 || (decide (0x2000 ≤ c) && decide (c ≤ 0x200A)) ||
  c == 0x2028 || c == 0x2029 || c == 0x202F || c == 0x205F || c == 0x3000

/-- Dropping a prefix never lengthens a list. -/
theorem dropWhile_length_le {α : Type} (p : α → Bool) (l : List α) :
    (l.dropWhile p).length ≤ l.length :=
  (List.dropWhile_suffix p).sublist.length_le

/-- Walk for `collapseRuns`: `prevWs` records whether the previous
character belonged to the class, i.e. whether we are inside a run whose
replacement space has already been emitted. -/
def collapseRuns.go (p : Nat → Bool) (prevWs : Bool) : List Nat → List Nat
  | [] => []
  | c :: rest =>
    if p c then
      if prevWs then collapseRuns.go p true rest
      else 32 :: collapseRuns.go p true rest
    else c :: collapseRuns.go p false rest

/-- Replace each maximal run of `p`-characters with a single space
(`whitespaceRe.ReplaceAllLiteralString(value, " ")`: the pattern `[...]+`
matches exactly the maximal runs of the class). -/
def collapseRuns (p : Nat → Bool) (v : List Nat) : List Nat :=
  collapseRuns.go p false v

/-- `strings.TrimSpace` at the code-point level. -/
def trimCp (v : List Nat) : List Nat :=
  ((v.dropWhile goIsSpace).reverse.dropWhile goIsSpace).reverse

/-- The per-value transformation of `Header.Normalize` (header.go):
collapse whitespace runs, then trim. -/
def normalizeValue (v : List Nat) : List Nat := trimCp (collapseRuns wsClassCp v)

/-- `Header.Normalize` from header.go: apply `normalizeValue` to every
value in place. -/
def Header.normalize (h : Header) : Header :=
  ⟨h.headers.map fun kv => ⟨kv.key, normalizeValue kv.value⟩⟩

/-! ## Type registry (generate.go `HeaderSyntax`) -/

/-- `HeaderType` from generate.go. -/
inductive HeaderType where
  | unstructured | mailbox | mailboxList | date | received
  | messageID | messageIDList | phraseList | returnPath | opq
  deriving Repr, DecidableEq

/-- `Syntax` from generate.go: RFC 5322 requirements for a header. -/
structure SyntaxRule where
  required : Bool := false
  unique : Bool := false
  type : HeaderType
  deriving Repr, DecidableEq

/-- `HeaderSyntax` from generate.go: the registry mapping canonical header
names to their syntax rules. -/
def headerSyntaxRules : List (List Nat × SyntaxRule) := [
  (str "Return-Path", { type := .returnPath }),
  (str "Received", { type := .received }),
  (str "Date", { required := true, unique := true, type := .date }),
  (str "From", { required := true, unique := true, type := .mailboxList }),
  (str "Sender", { unique := true, type := .mailbox }),
  (str "Reply-To", { unique := true, type := .mailboxList }),
  (str "To", { unique := true, type := .mailboxList }),
  (str "Cc", { unique := true, type := .mailboxList }),
  (str "Bcc", { unique := true, type := .mailboxList }),
  (str "Message-Id", { unique := true, type := .messageID }),
  (str "In-Reply-To", { unique := true, type := .messageIDList }),
  (str "References", { unique := true, type := .messageIDList }),
  (str "Subject", { unique := true, type := .unstructured }),
  (str "Comments", { type := .unstructured }),
  (str "Keywords", { type := .phraseList }),
  (str "Resent-Date", { type := .date }),
  (str "Resent-From", { type := .mailboxList }),
  (str "Resent-Sender", { type := .mailbox }),
  (str "Resent-To", { type := .mailboxList }),
  (str "Resent-Cc", { type := .mailboxList }),
  (str "Resent-Bcc", { type := .mailboxList }),
  (str "Mime-Version", { unique := true, type := .opq }),
  (str "Content-Type", { unique := true, type := .opq }),
  (str "Content-ID", { unique := true, type := .messageID }),
  (str "Content-Transfer-Encoding", { unique := true, type := .opq }),
  (str "Content-Description", { unique := true, type := .unstructured })]

/-- Registry lookup (`HeaderSyntax[key]`). -/
def syntaxFor (k : List Nat) : Option SyntaxRule :=
  (headerSyntaxRules.find? (fun p => p.1 == k)).map (·.2)

/-! ## External collaborators -/

/-- The result of `mail.ParseAddress`: a display name and the canonical
rendering `addr.String()`. -/
structure Addr where
  name : List Nat
  render : List Nat

/-- The external collaborators of generate.go, passed in explicitly:
`mime.QEncoding.Encode("utf-8", ·)`, `mail.ParseAddress` (`none` = parse
error), `mail.ParseAddressList`, and `mail.ParseDate` (`true` = parses). -/
structure Oracles where
  qencode : List Nat → List Nat
  parseAddress : List Nat → Option Addr
  parseAddressList : List Nat → Option (List Addr)
  parseDateOk : List Nat → Bool

/-- An oracle assignment for concrete evaluation: the encoder is the
identity and every delegated parse fails.  (The concrete inputs evaluated
with it never reach a delegating branch.) -/
def trivialOracles : Oracles :=
  ⟨id, fun _ => none, fun _ => none, fun _ => false⟩

/-! ## Regular-expression engine

generate.go and header.go use `regexp` (RE2).  The patterns involved are
built from character classes, literals, concatenation, `+` and `*`, with
no nullable starred subexpression; `runs r s` returns the list of input
suffixes remaining after each way `r` can match a prefix of `s` (for a
star, iterations are required to consume input, which agrees with RE2 for
non-nullable bodies). -/

/-- Regular expressions: character class, concatenation, Kleene star. -/
inductive Re where
  | cls (p : Nat → Bool)
  | cat (a b : Re)
  | star (a : Re)

/-- `e+` is `e e*`. -/
def Re.plus (e : Re) : Re := .cat e (.star e)

/-- A literal byte. -/
def Re.lit (c : Nat) : Re := .cls (· == c)

/-- Iterated matching for `star`: `f` matches the body, and each
iteration is required to consume input (the `length <` filter), which
agrees with RE2 for the non-nullable star bodies used here.  The fuel
argument bounds the number of iterations; since every iteration consumes
input, `s.length` fuel is always enough (at fuel 0 the filter result is
empty anyway whenever `s` is empty). -/
def starRunsF (f : List Nat → List (List Nat)) : Nat → List Nat → List (List Nat)
  | 0, s => [s]
  | n + 1, s =>
    s :: ((f s).filter (fun s' => s'.length < s.length)).flatMap (starRunsF f n)

/-- All suffixes of `s` left over after a match of `r` against a prefix of
`s` (with duplicates; order irrelevant). -/
def runs : Re → List Nat → List (List Nat)
  | .cls _, [] => []
  | .cls p, c :: s => if p c then [s] else []
  | .cat a b, s => (runs a s).flatMap (fun s' => runs b s')
  | .star a, s => starRunsF (runs a) s.length s

/-- Whether the regex matches a prefix of `s` starting at position 0 —
`re.MatchString(s)` for a `^`-anchored pattern. -/
def reMatchStart (r : Re) (s : List Nat) : Bool := !(runs r s).isEmpty

/-- The `atext` character class of generate.go (the class between the
brackets of the `atext` constant: lower and upper letters, digits, the
bytes 33 35 36 37 38 39 42, the range 43–47 — written as plus, hyphen,
slash in the source, which inside a class is the range from 43 to 47 and
therefore also contains comma 44 and dot 46 — and the bytes 61 63 94 95
96 123 124 125 126). -/
def atextB (b : Nat) : Bool :=
  (decide (97 ≤ b) && decide (b ≤ 122)) ||
  (decide (65 ≤ b) && decide (b ≤ 90)) ||
  (decide (48 ≤ b) && decide (b ≤ 57)) ||
  b == 33 || b == 35 || b == 36 || b == 37 || b == 38 || b == 39 || b == 42 ||
  (decide (43 ≤ b) && decide (b ≤ 47)) ||
  b == 61 || b == 63 || b == 94 || b == 95 || b == 96 ||
  b == 123 || b == 124 || b == 125 || b == 126

/-- RE2's `\s`: `[\t\n\f\r ]`. -/
def reWsB (b : Nat) : Bool :=
  b == 9 || b == 10 || b == 12 || b == 13 || b == 32

/-- `messageIdRe` from generate.go:
```
^\s*<atext+(?:\.atext+)*@atext+(?:\.atext+)>\s*
```
(the domain tail group `(?:\.atext+)` has no `*` and the pattern has no
trailing `$`).  The leading `^` anchor is expressed by matching with
`reMatchStart`. -/
def messageIdRe : Re :=
  .cat (.star (.cls reWsB)) <| .cat (.lit 60) <|
  .cat (Re.plus (.cls atextB)) <|
  .cat (.star (.cat (.lit 46) (Re.plus (.cls atextB)))) <|
  .cat (.lit 64) <| .cat (Re.plus (.cls atextB)) <|
  .cat (.cat (.lit 46) (Re.plus (.cls atextB))) <|
  .cat (.lit 62) (.star (.cls reWsB))

/-- `validMessageId` from generate.go: `messageIdRe.MatchString(s)`. -/
def validMessageId (s : List Nat) : Bool := reMatchStart messageIdRe s

/-- `strings.Split(s, sep)` for a one-byte separator. -/
def splitByte (sep : Nat) : List Nat → List (List Nat)
  | [] => [[]]
  | c :: rest =>
    if c == sep then [] :: splitByte sep rest
    else
      match splitByte sep rest with
      | x :: xs => (c :: x) :: xs
      | [] => [[c]]

/-- `validMessageIdList` from generate.go: split on `','` and require every
segment to be a valid message id. -/
def validMessageIdList (s : List Nat) : Bool :=
  (splitByte 44 s).all validMessageId

/-! ## Validator (generate.go `checkHeader`, `Check`) -/

/-- Validation failures of `checkHeader` (tags for the formatted error
strings of the source). -/
inductive CheckErr where
  | nonAscii | returnPath | date | mailbox | mailboxList
  | messageId | messageIdList
  deriving Repr, DecidableEq

/-- `checkHeader` from generate.go: trim the value, then dispatch on the
semantic type.  `none` means valid. -/
def checkHeader (or : Oracles) (t : HeaderType) (value : List Nat) :
    Option CheckErr :=
  let value := trimBytes value
  match t with
  | .unstructured | .phraseList => none
  | .opq | .received => if isAscii value then none else some .nonAscii
  | .returnPath =>
    if value == str "<>" then none
    else
      match or.parseAddress value with
      | none => some .returnPath
      | some a => if a.name.isEmpty then none else some .returnPath
  | .date => if or.parseDateOk value then none else some .date
  | .mailbox => if (or.parseAddress value).isSome then none else some .mailbox
  | .mailboxList =>
    if (or.parseAddressList value).isSome then none else some .mailboxList
  | .messageID => if validMessageId value then none else some .messageId
  | .messageIDList =>
    if validMessageIdList value then none else some .messageIdList

/-- `Check` from generate.go: validate a `(name, value)` pair against the
registry; names outside the registry always pass. -/
def check (or : Oracles) (name value : List Nat) : Option CheckErr :=
  match syntaxFor (canonicalKey name) with
  | none => none
  | some syn => checkHeader or syn.type value

/-! ## Set (generate.go `Header.Set`) -/

/-- Errors of `Header.Set`. -/
inductive SetErr where
  | notStandard (key : List Nat)
  | invalidValue (key : List Nat) (e : CheckErr)
  deriving Repr, DecidableEq

/-- The replacement loop of `Set`: replace the first entry whose key is
`canonKey`, or report that none exists. -/
def replaceFirst (canonKey value : List Nat) : List KV → Option (List KV)
  | [] => none
  | kv :: rest =>
    if kv.key == canonKey then some (⟨canonKey, value⟩ :: rest)
    else (replaceFirst canonKey value rest).map (kv :: ·)

/-- `Header.Set` from generate.go.  The Go method mutates its receiver and
returns an error; here the returned pair is (post-call header state,
error), the error paths returning the receiver unchanged. -/
def Header.set (h : Header) (or : Oracles) (key value : List Nat) :
    Header × Option SetErr :=
  let canonKey := canonicalKey key
  match syntaxFor canonKey with
  | none => (h, some (.notStandard canonKey))
  | some syn =>
    match (if value.isEmpty then none else checkHeader or syn.type value) with
    | some e => (h, some (.invalidValue key e))
    | none =>
      match replaceFirst canonKey value h.headers with
      | some l => (⟨l⟩, none)
      | none => (⟨h.headers ++ [⟨canonKey, value⟩]⟩, none)

/-- `Options` from generate.go: rendering configuration. -/
structure Options' where
  renderBCC : Bool := false
  renderBlank : Bool := false
  noEscape : Bool := false
  renderReturnPath : Bool := false
  deriving Repr, DecidableEq

/-! ## Folding serializer (generate.go `writeHeader`)

`writeHeader` writes `key`, `": "`, and then either the whole prepared
value followed by CRLF (short values), or scans the value byte by byte,
flushing whitespace-separated tokens and folding lines at column 78.

The model mirrors the Go writes exactly, but collects the output
structured into lines instead of a flat byte stream: every `w.Write` of
token bytes appends a unit to the current line, and every CRLF write
closes the current line.  `flattenLines` recovers the byte stream.  Each
closed line is tagged with why it was closed: `wrap` (the 78-column check
inserted a fold before a token), `embedded` (a caller-embedded CR/LF run
in the value), `last` (the terminating CRLF or the short-value path). -/

/-- Why a line of folded output was closed. -/
inductive Cause where
  | wrap | embedded | last
  deriving Repr, DecidableEq

/-- One emitted line: the written chunks (units) composing it, and why it
was closed.  The byte content of the line is `units.join`. -/
structure Line where
  units : List (List Nat)
  cause : Cause
  deriving Repr, DecidableEq

/-- The bytes of a line, without its CRLF terminator. -/
def Line.content (l : Line) : List Nat := l.units.flatten

/-- The byte stream of a list of emitted lines: each line's content
followed by CRLF. -/
def flattenLines (ls : List Line) : List Nat :=
  (ls.map (fun l => l.content ++ [13, 10])).flatten

/-- The token-scanning loop of `writeHeader` (generate.go, from
`inString := false` to the final CRLF), in state-passing form.

State, mirroring the Go variables:
* `lines`/`cur` — the output written so far: closed lines, and the units
  of the line currently being written (initially the `Key: ` prefix);
* `col` — `column`;
* `pending` — `val[tokenStart:i]`, the bytes of the token being scanned;
* `first` — `tokenStart == 0`;
* `inStr` — `inString`;
* the argument list — `val[i:]`.

The branches, in source order: `'"'` toggles `inString` (the byte stays in
the pending token); CR/LF inside a quoted string is the fatal
malformed-value error (`none`); an outside-quote CR/LF run flushes the
pending token, closes the line, and either reuses a following space/tab
(column 0) or synthesizes a tab (column 1) — the byte after the run is
consumed into the new pending token without being examined (the loop's
`i++` skips it); an outside-quote whitespace byte flushes the pending
token with the 78-column fold check; everything else accumulates.  At the
end of input: the final flush (with the extra `column > 1` condition) and
the terminating CRLF if `column != 0`. -/
def foldFinish (lines : List Line) (cur : List (List Nat)) (col : Nat)
    (pending : List Nat) (first : Bool) : Option (List Line) :=
  if pending.isEmpty then
    if col ≠ 0 then some (lines ++ [⟨cur, .last⟩]) else some lines
  else if 78 < col + pending.length ∧ first = false ∧ 1 < col then
    some (lines ++ [⟨cur, .wrap⟩, ⟨[pending], .last⟩])
  else
    some (lines ++ [⟨cur ++ [pending], .last⟩])

/-- One step per consumed byte; the fuel argument makes the recursion
structural and is initialized to the input length, which every branch
preserves as an upper bound on the remaining input (each step consumes at
least one byte), so the fuel-exhausted case coincides with the
end-of-input case. -/
def foldLoop (lines : List Line) (cur : List (List Nat)) (col : Nat)
    (pending : List Nat) (first inStr : Bool) :
    Nat → List Nat → Option (List Line)
  | _, [] => foldFinish lines cur col pending first
  | 0, _ :: _ => foldFinish lines cur col pending first
  | n + 1, v :: rest =>
    if v == 34 then
      foldLoop lines cur col (pending ++ [v]) first (!inStr) n rest
    else if inStr then
      if crlfB v then none
      else foldLoop lines cur col (pending ++ [v]) first inStr n rest
    else if crlfB v then
      match rest.dropWhile crlfB with
      | [] =>
        if pending.isEmpty then
          if col ≠ 0 then some (lines ++ [⟨cur, .last⟩]) else some lines
        else some (lines ++ [⟨cur ++ [pending], .embedded⟩])
      | w :: rest'' =>
        if pending.isEmpty then foldLoop lines cur col [w] false inStr n rest''
        else if w == 32 || w == 9 then
          foldLoop (lines ++ [⟨cur ++ [pending], .embedded⟩]) [] 0
            [w] false inStr n rest''
        else
          foldLoop (lines ++ [⟨cur ++ [pending], .embedded⟩]) [[9]] 1
            [w] false inStr n rest''
    else if wsB v then
      let doFold := decide (78 < col + pending.length) && !first
      let lines' := if doFold then lines ++ [⟨cur, .wrap⟩] else lines
      let cur' := if doFold then ([] : List (List Nat)) else cur
      let col' := if doFold then 0 else col
      foldLoop lines'
        (if pending.isEmpty then cur' else cur' ++ [pending])
        (col' + pending.length) [v] (first && pending.isEmpty) inStr n rest
    else foldLoop lines cur col (pending ++ [v]) first inStr n rest

/-- `writeHeader` from the `if len(value)+column < 78` check onward,
applied to the prepared value `v2`: the short-value path emits
`Key: value CRLF` as one line; otherwise the scanning loop runs with the
`Key: ` prefix as the current line and `column = len(key) + 2`. -/
def writeHeaderFrom (key v2 : List Nat) : Option (List Line) :=
  let pfx := key ++ [58, 32]
  if v2.length + (key.length + 2) < 78 then
    some [⟨if v2.isEmpty then [pfx] else [pfx, v2], .last⟩]
  else foldLoop [] [pfx] (key.length + 2) [] true false v2.length v2

/-- Errors of `writeHeader`: CR/LF inside a quoted string, or an address
parse failure for the Mailbox/MailboxList preparation. -/
inductive RenderErr where
  | quotedCRLF | mailbox | mailboxList
  deriving Repr, DecidableEq

/-- The per-type value preparation of `writeHeader` (the `switch` on
`headerType`): Unstructured/PhraseList q-encode non-ASCII values unless
`NoEscape`; Opaque, Received, ReturnPath, Date, MessageID, MessageIDList
pass through; Mailbox/MailboxList re-render through the address parser,
failing on a parse error.  (All ten enum values are covered, so the
`default` internal-error branch of the source is unreachable.) -/
def prepValue (or : Oracles) (o : Options') (t : HeaderType)
    (value : List Nat) : Except RenderErr (List Nat) :=
  match t with
  | .unstructured | .phraseList =>
    .ok (if !isAscii value && !o.noEscape then or.qencode value else value)
  | .opq | .received | .returnPath | .date | .messageID | .messageIDList =>
    .ok value
  | .mailbox =>
    match or.parseAddress value with
    | some a => .ok a.render
    | none => .error .mailbox
  | .mailboxList =>
    match or.parseAddressList value with
    | some as => .ok (List.intercalate (str ", ") (as.map (·.render)))
    | none => .error .mailboxList

/-- `writeHeader` from generate.go: trim the value, prepare it for its
semantic type, then fold.  (In the source the `Key: ` prefix is written
before the preparation runs, so a preparation error leaves a partial
prefix in the writer; `WriteTo` aborts on the error, so this does not
affect which entries render.) -/
def writeHeader (or : Oracles) (o : Options') (t : HeaderType)
    (key value : List Nat) : Except RenderErr (List Line) :=
  match prepValue or o t (trimBytes value) with
  | .error e => .error e
  | .ok v2 =>
    match writeHeaderFrom key v2 with
    | some ls => .ok ls
    | none => .error .quotedCRLF

/-- The byte stream emitted by `writeHeader`. -/
def writeHeaderBytes (or : Oracles) (o : Options') (t : HeaderType)
    (key value : List Nat) : Except RenderErr (List Nat) :=
  (writeHeader or o t key value).map flattenLines

/-! ## Writer (generate.go `WriteTo`)

`WriteTo` iterates the entries in order, skipping blank values (unless
`RenderBlank`), `Bcc` (unless `RenderBCC`), `Return-Path` (unless
`RenderReturnPath`), and — for keys registered `unique` — entries whose
key is already in the `seen` set, which is marked just before rendering.
It aborts on the first `writeHeader` error.  The model returns the list
of entries that were rendered (in order), which determines the emitted
byte stream as the concatenation of their `writeHeaderBytes`. -/

/-- The loop body of `WriteTo`: `seen` is the set of unique keys already
marked, `rendered` the entries rendered so far. -/
def writeToLoop (or : Oracles) (o : Options') (seen : List (List Nat))
    (rendered : List KV) : List KV → Except RenderErr (List KV)
  | [] => .ok rendered
  | kv :: rest =>
    if !o.renderBlank && kv.value.isEmpty then
      writeToLoop or o seen rendered rest
    else if kv.key == str "Bcc" && !o.renderBCC then
      writeToLoop or o seen rendered rest
    else if kv.key == str "Return-Path" && !o.renderReturnPath then
      writeToLoop or o seen rendered rest
    else
      match syntaxFor kv.key with
      | some syn =>
        if syn.unique && seen.contains kv.key then
          writeToLoop or o seen rendered rest
        else
          let seen' := if syn.unique then kv.key :: seen else seen
          match writeHeader or o syn.type kv.key kv.value with
          | .error e => .error e
          | .ok _ => writeToLoop or o seen' (rendered ++ [kv]) rest
      | none =>
        match writeHeader or o .opq kv.key kv.value with
        | .error e => .error e
        | .ok _ => writeToLoop or o seen (rendered ++ [kv]) rest

/-- `Header.WriteTo` from generate.go, instrumented to return the rendered
entries. -/
def Header.writeTo (h : Header) (or : Oracles) (o : Options') :
    Except RenderErr (List KV) :=
  writeToLoop or o [] [] h.headers

/-! ## Properties of canonicalization -/

/-- One canonicalization pass leaves each produced byte fixed under a
second pass run with the same flag. -/
theorem canonicalKey.go_idem (k : List Nat) :
    ∀ u, canonicalKey.go u (canonicalKey.go u k) = canonicalKey.go u k := by
  induction k with
  | nil => intro u; rfl
  | cons b rest ih =>
    intro u
    cases u with
    | true =>
      by_cases hb : 97 ≤ b ∧ b ≤ 122
      · have h2 : ¬(97 ≤ b - 32 ∧ b - 32 ≤ 122) := by omega
        simp [canonicalKey.go, hb, h2, ih]
        refine ⟨by omega, ?_⟩
        rw [if_neg (by omega)]
        exact ih _
      · simp [canonicalKey.go, hb, ih]
    | false =>
      by_cases hb : 65 ≤ b ∧ b ≤ 90
      · have h2 : ¬(65 ≤ b + 32 ∧ b + 32 ≤ 90) := by omega
        simp [canonicalKey.go, hb, h2, ih]
        refine ⟨by omega, ?_⟩
        rw [if_neg (by omega)]
        have hflag : (b + 32 == 45) = (b == 13) := by
          by_cases h : b = 13
          · subst h; rfl
          · have h1 : b + 32 ≠ 45 := by omega
            simp [h, h1]
        rw [hflag]
        exact ih _
      · simp [canonicalKey.go, hb, ih]

/-- Canonicalization is idempotent. -/
theorem canonicalKey_idem (k : List Nat) :
    canonicalKey (canonicalKey k) = canonicalKey k :=
  canonicalKey.go_idem k true

/-- Canonicalization yields the empty key exactly on the empty key. -/
theorem canonicalKey_eq_nil_iff (k : List Nat) :
    canonicalKey k = [] ↔ k = [] := by
  cases k with
  | nil => simp [canonicalKey, canonicalKey.go]
  | cons b rest => simp [canonicalKey, canonicalKey.go]

/-! ## C3: per-line behavior of `ReadHeader` -/

/-- Spec-side description of the reader, following the claim's words: per
logical line, locate the first colon; with no colon, return the partially
built header with a malformed-line error carrying the line; otherwise trim
trailing spaces from the text before the colon, and silently skip the line
if that trimmed key text is empty; otherwise skip leading spaces and tabs
after the colon and append an entry with the canonicalized key and the
remaining text verbatim, preserving duplicates and order; stop normally on
a blank line or stream end, returning the partially built header alongside
any underlying stream error. -/
def readHeaderSpecLoop {ε : Type} (m : Header) :
    List (List Nat × Option ε) → Header × Option (ReadErr ε)
  | [] => (m, none)
  | (line, e) :: rest =>
    if line.isEmpty then (m, e.map .stream)
    else
      match line.findIdx? (· == 58) with
      | none => (m, some (.malformed line))
      | some i =>
        let rawKey := dropTrailingSpaces (line.take i)
        if rawKey.isEmpty then readHeaderSpecLoop m rest
        else
          let value := (line.drop (i + 1)).dropWhile (fun b => b == 32 || b == 9)
          let m' : Header := ⟨m.headers ++ [⟨canonicalKey rawKey, value⟩]⟩
          match e with
          | some err => (m', some (.stream err))
          | none => readHeaderSpecLoop m' rest

/-- Spec-side reader. -/
def readHeaderSpec {ε : Type} (src : List (List Nat × Option ε)) :
    Header × Option (ReadErr ε) :=
  readHeaderSpecLoop ⟨[]⟩ src

theorem readHeaderLoop_eq_spec {ε : Type}
    (src : List (List Nat × Option ε)) :
    ∀ m, readHeaderLoop m src = readHeaderSpecLoop m src := by
  induction src with
  | nil => intro m; rfl
  | cons p rest ih =>
    intro m
    obtain ⟨line, e⟩ := p
    simp only [readHeaderLoop, readHeaderSpecLoop]
    by_cases hl : line.isEmpty
    · simp [hl]
    · simp only [hl, Bool.false_eq_true, if_false]
      cases hidx : line.findIdx? (· == 58) with
      | none => rfl
      | some i =>
        simp only []
        by_cases hk : (dropTrailingSpaces (line.take i)).isEmpty
        · have hck : (canonicalKey (dropTrailingSpaces (line.take i))).isEmpty := by
            simp only [List.isEmpty_iff] at hk ⊢
            rw [canonicalKey_eq_nil_iff]
            exact hk
          simp [hk, hck, ih]
        · have hck : ¬(canonicalKey (dropTrailingSpaces (line.take i))).isEmpty := by
            simp only [List.isEmpty_iff] at hk ⊢
            rw [canonicalKey_eq_nil_iff]
            exact hk
          have hadd : ∀ v, Header.add m (canonicalKey (dropTrailingSpaces (line.take i))) v =
              ⟨m.headers ++ [⟨canonicalKey (dropTrailingSpaces (line.take i)), v⟩]⟩ := by
            intro v
            simp [Header.add, canonicalKey_idem]
          simp only [hk, hck, Bool.false_eq_true, if_false, hadd]
          cases e with
          | some err => rfl
          | none => exact ih _

/-- C3: `ReadHeader` processes each logical line exactly as the claim
describes — first colon located (malformed-line error carrying the line if
absent), trailing spaces trimmed from the key text, empty-key lines
silently skipped, leading spaces/tabs after the colon skipped, the entry
appended with the canonicalized key and the remaining text verbatim
(duplicates and order preserved) — stopping normally on a blank line or
stream end and returning the partially built header alongside any
underlying stream error (`readHeaderSpec` states this description; the
theorem says `readHeader` implements it for every line sequence). -/
theorem c3_readHeader_per_line {ε : Type}
    (src : List (List Nat × Option ε)) :
    readHeader src = readHeaderSpec src :=
  readHeaderLoop_eq_spec src ⟨[]⟩

/-! ## C4, C9: `Set` -/

/-- Spec-side description of `Set`, following the claim's words:
canonicalize the key; error if the canonical key is not in the registry;
if the value is non-empty, run the validator for the key's semantic type
and error on invalid syntax; otherwise replace the **first** existing
entry whose key equals the canonical key — leaving later duplicates
untouched (here: the prefix of non-matching entries, then the replacement,
then the untouched tail) — or append a new entry if no entry with that key
exists. -/
def setSpec (h : Header) (or : Oracles) (key value : List Nat) :
    Header × Option SetErr :=
  let ck := canonicalKey key
  match syntaxFor ck with
  | none => (h, some (.notStandard ck))
  | some syn =>
    match (if value.isEmpty then none else checkHeader or syn.type value) with
    | some e => (h, some (.invalidValue key e))
    | none =>
      match h.headers.dropWhile (fun kv => !(kv.key == ck)) with
      | [] => (⟨h.headers ++ [⟨ck, value⟩]⟩, none)
      | _ :: tail =>
        (⟨h.headers.takeWhile (fun kv => !(kv.key == ck)) ++
          ⟨ck, value⟩ :: tail⟩, none)

theorem replaceFirst_eq (ck v : List Nat) (l : List KV) :
    replaceFirst ck v l =
      match l.dropWhile (fun kv => !(kv.key == ck)) with
      | [] => none
      | _ :: tail =>
        some (l.takeWhile (fun kv => !(kv.key == ck)) ++ ⟨ck, v⟩ :: tail) := by
  induction l with
  | nil => rfl
  | cons kv rest ih =>
    by_cases hk : kv.key == ck
    · simp [replaceFirst, hk, List.dropWhile_cons, List.takeWhile_cons]
    · simp only [replaceFirst, hk, Bool.false_eq_true, if_false, ih,
        List.dropWhile_cons, List.takeWhile_cons, Bool.not_false]
      cases hd : rest.dropWhile (fun kv => !(kv.key == ck)) with
      | nil => simp [hk]
      | cons x tail => simp [hk]

/-- C4: `Set` canonicalizes the key, fails when the canonical key is not
in the registry (`HeaderSyntax`), runs the validator on non-empty values
and fails on invalid syntax, and otherwise replaces the first entry with
the canonical key (leaving later duplicates untouched) or appends when no
such entry exists — `setSpec` states this description; the theorem says
`Set` implements it for every header, key, value and oracle assignment. -/
theorem c4_set_behavior (h : Header) (or : Oracles) (key value : List Nat) :
    h.set or key value = setSpec h or key value := by
  cases hs : syntaxFor (canonicalKey key) with
  | none => simp [Header.set, setSpec, hs]
  | some syn =>
    cases hchk : (if value = ([] : List Nat) then none
        else checkHeader or syn.type value) with
    | some e => simp [Header.set, setSpec, hs, hchk]
    | none =>
      simp only [Header.set, setSpec, hs, hchk, replaceFirst_eq]
      cases hd : h.headers.dropWhile
          (fun kv => !(kv.key == canonicalKey key)) with
      | nil => simp
      | cons x tail => simp

/-- C9: whenever `Set` returns an error — unregistered canonical key, or
a non-empty value failing validation — the header's entry sequence is
exactly what it was before the call. -/
theorem c9_set_error_no_change (h : Header) (or : Oracles)
    (key value : List Nat) (herr : (h.set or key value).2 ≠ none) :
    (h.set or key value).1 = h := by
  cases hs : syntaxFor (canonicalKey key) with
  | none => simp [Header.set, hs]
  | some syn =>
    cases hchk : (if value = ([] : List Nat) then none
        else checkHeader or syn.type value) with
    | some e => simp [Header.set, hs, hchk]
    | none =>
      exfalso
      apply herr
      simp only [Header.set, hs, hchk]
      cases hrep : replaceFirst (canonicalKey key) value h.headers with
      | none => simp [hchk, hrep]
      | some l => simp [hchk, hrep]

/-- Witness for C9 at a concrete input: setting the unregistered key
`X-Loop` fails and leaves a one-entry header unchanged. -/
theorem c9_set_error_no_change_witness :
    ((Header.mk [⟨str "Subject", str "hi"⟩]).set trivialOracles
        (str "X-Loop") (str "1")).1 = Header.mk [⟨str "Subject", str "hi"⟩] :=
  c9_set_error_no_change _ trivialOracles _ _ (by decide)

/-! ## C8: every stored key is canonical -/

/-- Whether every key stored in a header is in canonical form — the form
described by the claim: split on hyphens, each segment's first letter
capitalized, remainder lowercase (this is exactly what `canonicalKey`
computes, so being in canonical form is being a fixed point). -/
def canonicalHeaderB (h : Header) : Bool :=
  h.headers.all (fun kv => canonicalKey kv.key == kv.key)

/-- A header mutation: the operations of the claim
(`ReadHeader` is the starting point, handled separately). -/
inductive HOp where
  | add (k v : List Nat)
  | set (k v : List Nat)
  | removeAll (k : List Nat)
  | normalize

/-- Apply one mutation (for `set`, the post-call state, whether or not an
error was reported). -/
def applyOp (or : Oracles) (h : Header) : HOp → Header
  | .add k v => h.add k v
  | .set k v => (h.set or k v).1
  | .removeAll k => h.removeAll k
  | .normalize => h.normalize

/-- Apply a sequence of mutations in order. -/
def applyOps (or : Oracles) (h : Header) (ops : List HOp) : Header :=
  ops.foldl (applyOp or) h

theorem mem_replaceFirst (ck v : List Nat) (l l' : List KV)
    (hl : replaceFirst ck v l = some l') :
    ∀ kv ∈ l', kv = ⟨ck, v⟩ ∨ kv ∈ l := by
  induction l generalizing l' with
  | nil => simp [replaceFirst] at hl
  | cons x rest ih =>
    by_cases hk : x.key == ck
    · simp only [replaceFirst, hk, if_true, Option.some_inj] at hl
      subst hl
      intro kv hkv
      rcases List.mem_cons.mp hkv with rfl | h
      · exact Or.inl rfl
      · exact Or.inr (List.mem_cons_of_mem _ h)
    · simp only [replaceFirst, hk, Bool.false_eq_true, if_false,
        Option.map_eq_some'] at hl
      obtain ⟨l'', hl'', rfl⟩ := hl
      intro kv hkv
      rcases List.mem_cons.mp hkv with rfl | h
      · exact Or.inr (List.mem_cons_self _ _)
      · rcases ih l'' hl'' kv h with h' | h'
        · exact Or.inl h'
        · exact Or.inr (List.mem_cons_of_mem _ h')

theorem canonicalHeaderB_applyOp (or : Oracles) (h : Header) (op : HOp)
    (hc : canonicalHeaderB h = true) :
    canonicalHeaderB (applyOp or h op) = true := by
  cases op with
  | add k v =>
    simp only [applyOp, Header.add, canonicalHeaderB, List.all_append,
      List.all_cons, List.all_nil, Bool.and_true, Bool.and_eq_true] at hc ⊢
    exact ⟨hc, by simp [canonicalKey_idem]⟩
  | set k v =>
    simp only [applyOp]
    cases hs : syntaxFor (canonicalKey k) with
    | none => simpa [Header.set, hs] using hc
    | some syn =>
      cases hchk : (if v.isEmpty = true then none
          else checkHeader or syn.type v) with
      | some e => simpa only [Header.set, hs, hchk] using hc
      | none =>
        simp only [Header.set, hs, hchk]
        cases hrep : replaceFirst (canonicalKey k) v h.headers with
        | none =>
          simp only [canonicalHeaderB, List.all_append, List.all_cons,
            List.all_nil, Bool.and_true, Bool.and_eq_true]
          simp only [canonicalHeaderB] at hc
          exact ⟨hc, by simp [canonicalKey_idem]⟩
        | some l =>
          simp only [canonicalHeaderB, List.all_eq_true] at hc ⊢
          intro kv hkv
          rcases mem_replaceFirst _ _ _ _ hrep kv hkv with rfl | hmem
          · simp [canonicalKey_idem]
          · exact hc kv hmem
  | removeAll k =>
    simp only [applyOp, Header.removeAll, canonicalHeaderB,
      List.all_eq_true] at hc ⊢
    intro kv hkv
    exact hc kv (List.mem_of_mem_filter hkv)
  | normalize =>
    simp only [applyOp, Header.normalize, canonicalHeaderB,
      List.all_eq_true, List.mem_map] at hc ⊢
    rintro kv ⟨kv', hkv', rfl⟩
    exact hc kv' hkv'

theorem canonicalHeaderB_applyOps (or : Oracles) (ops : List HOp) :
    ∀ h, canonicalHeaderB h = true →
      canonicalHeaderB (applyOps or h ops) = true := by
  induction ops with
  | nil => intro h hc; exact hc
  | cons op rest ih =>
    intro h hc
    exact ih _ (canonicalHeaderB_applyOp or h op hc)

theorem canonicalHeaderB_readHeaderLoop {ε : Type}
    (src : List (List Nat × Option ε)) :
    ∀ m, canonicalHeaderB m = true →
      canonicalHeaderB (readHeaderLoop m src).1 = true := by
  induction src with
  | nil => intro m hc; exact hc
  | cons p rest ih =>
    intro m hc
    obtain ⟨line, e⟩ := p
    simp only [readHeaderLoop]
    by_cases hl : line.isEmpty
    · simp [hl, hc]
    · simp only [hl, Bool.false_eq_true, if_false]
      cases line.findIdx? (· == 58) with
      | none => exact hc
      | some i =>
        simp only []
        have hadd : canonicalHeaderB
            (m.add (canonicalKey (dropTrailingSpaces (line.take i)))
              ((line.drop (i + 1)).dropWhile (fun b => b == 32 || b == 9)))
            = true := by
          simp only [Header.add, canonicalHeaderB, List.all_append,
            List.all_cons, List.all_nil, Bool.and_true, Bool.and_eq_true]
          simp only [canonicalHeaderB] at hc
          exact ⟨hc, by simp [canonicalKey_idem]⟩
        by_cases hk : (canonicalKey (dropTrailingSpaces (line.take i))).isEmpty
        · simp only [hk, if_true]
          exact ih m hc
        · simp only [hk, Bool.false_eq_true, if_false]
          cases e with
          | some err => exact hadd
          | none => exact ih _ hadd

/-- C8: after parsing any line sequence with `ReadHeader` and applying any
sequence of `Add`, `Set`, `RemoveAll` and `Normalize` operations with any
keys (of any casing or content) and values, every key stored in the header
is in canonical form: hyphen-split segments, first letter capitalized,
remainder lowercase (a fixed point of `canonicalKey`, which computes that
form). -/
theorem c8_keys_canonical {ε : Type} (or : Oracles)
    (src : List (List Nat × Option ε)) (ops : List HOp) :
    canonicalHeaderB (applyOps or (readHeader src).1 ops) = true :=
  canonicalHeaderB_applyOps or ops _
    (canonicalHeaderB_readHeaderLoop src ⟨[]⟩ rfl)

/-! ## C7, C10: `Normalize` -/

/-- The claim's whitespace class for C7: space, tab, **vertical tab**,
form feed, CR, LF, and the Unicode space separators. -/
def c7ClaimClass (c : Nat) : Bool :=
  c == 9 || c == 10 || c == 11 || c == 12 || c == 13 || c == 32 || zsCp c

/-- The transformation C7 claims `Normalize` applies to each value:
collapse each maximal run of the claim's whitespace class to one ASCII
space, then trim leading and trailing spaces. -/
def c7ClaimTransform (v : List Nat) : List Nat :=
  ((collapseRuns c7ClaimClass v).dropWhile (· == 32)).rdropWhile (· == 32)

/-- Spec-side formulation of run collapsing, literally "each maximal run
of class characters becomes one space": on meeting a class character,
emit one space and drop the whole run. -/
def collapseSpec (p : Nat → Bool) : List Nat → List Nat
  | [] => []
  | c :: rest =>
    if p c then 32 :: collapseSpec p (rest.dropWhile p)
    else c :: collapseSpec p rest
termination_by l => l.length
decreasing_by
  · simp only [List.length_cons]
    exact Nat.lt_succ_of_le (dropWhile_length_le p rest)
  · simp

theorem collapseRuns.go_true_eq (p : Nat → Bool) (l : List Nat) :
    collapseRuns.go p true l = collapseRuns.go p false (l.dropWhile p) := by
  induction l with
  | nil => rfl
  | cons c rest ih =>
    by_cases hc : p c
    · simp only [collapseRuns.go, hc, if_true, List.dropWhile_cons, ih]
    · simp only [collapseRuns.go, hc, Bool.false_eq_true, if_false,
        List.dropWhile_cons]

theorem collapseSpec_eq_go (p : Nat → Bool) :
    ∀ (n : Nat) (l : List Nat), l.length ≤ n →
      collapseSpec p l = collapseRuns.go p false l := by
  intro n
  induction n with
  | zero =>
    intro l hl
    have : l = [] := List.length_eq_zero.mp (Nat.le_zero.mp hl)
    subst this
    simp [collapseSpec, collapseRuns.go]
  | succ n ih =>
    intro l hl
    cases l with
    | nil => simp [collapseSpec, collapseRuns.go]
    | cons c rest =>
      by_cases hc : p c
      · rw [collapseSpec, if_pos hc]
        simp only [collapseRuns.go, hc, if_true, collapseRuns.go_true_eq]
        rw [ih _ (le_trans (dropWhile_length_le p rest)
          (Nat.le_of_succ_le_succ hl))]
        simp
      · rw [collapseSpec, if_neg hc]
        simp only [collapseRuns.go, hc, Bool.false_eq_true, if_false]
        rw [ih _ (Nat.le_of_succ_le_succ hl)]

/-- Counterexample for C7: the code's whitespace class (`[\s\p{Zs}]`,
where RE2's `\s` is `[\t\n\f\r ]`) does not contain the vertical tab
0x0B, so `Normalize` leaves `"a\vb"` unchanged, while the transformation
the claim describes (whose class includes vertical tab) yields `"a b"`. -/
theorem c7_normalize_counterexample :
    Header.normalize ⟨[⟨str "Foo", [97, 11, 98]⟩]⟩ =
        ⟨[⟨str "Foo", [97, 11, 98]⟩]⟩ ∧
      c7ClaimTransform [97, 11, 98] = [97, 32, 98] ∧
      ([97, 11, 98] : List Nat) ≠ [97, 32, 98] := by
  refine ⟨?_, by rfl, by decide⟩
  rfl

/-- C7 (amended): `Normalize` rewrites every entry's value by collapsing
each maximal run of whitespace-class characters — space, tab, form feed,
CR, LF, and Unicode space separators, but **not** vertical tab — to a
single ASCII space and trimming leading and trailing Unicode whitespace
(`strings.TrimSpace`'s class, which does include vertical tab), leaving
keys and entry order unchanged; in particular it maps
`"  one\ttwo   three\n  four\t five\t\nsix\r\nseven\n"` to
`"one two three four five six seven"`. -/
theorem c7_normalize_amended :
    (∀ h : Header, (h.normalize).headers = h.headers.map
      (fun kv => ⟨kv.key, trimCp (collapseSpec wsClassCp kv.value)⟩)) ∧
    normalizeValue (str "  one\ttwo   three\n  four\t five\t\nsix\r\nseven\n") =
      str "one two three four five six seven" := by
  constructor
  · intro h
    simp only [Header.normalize]
    apply List.map_congr_left
    intro kv _
    simp only [normalizeValue, collapseRuns,
      collapseSpec_eq_go wsClassCp kv.value.length kv.value le_rfl]
  · rfl

/-- A collapsed value: every whitespace-class character in it is the
plain space 32, and no two adjacent characters are both in the class. -/
def goodC (l : List Nat) : Prop :=
  (∀ c ∈ l, wsClassCp c = true → c = 32) ∧
    l.Chain' (fun a b => ¬(wsClassCp a = true ∧ wsClassCp b = true))

theorem head?_go_true_not_ws (p : Nat → Bool) (l : List Nat) :
    ∀ c, (collapseRuns.go p true l).head? = some c → p c = false := by
  induction l with
  | nil => intro c hc; simp [collapseRuns.go] at hc
  | cons d rest ih =>
    intro c hc
    by_cases hd : p d
    · exact ih c (by simpa [collapseRuns.go, hd] using hc)
    · simp only [collapseRuns.go, hd, Bool.false_eq_true, if_false,
        List.head?_cons, Option.some_inj] at hc
      subst hc
      simpa using hd

theorem goodC_go (l : List Nat) :
    ∀ u, goodC (collapseRuns.go wsClassCp u l) := by
  induction l with
  | nil => intro u; exact ⟨by simp [collapseRuns.go], by simp [collapseRuns.go]⟩
  | cons c rest ih =>
    intro u
    by_cases hc : wsClassCp c
    · cases u with
      | true => simpa [collapseRuns.go, hc] using ih true
      | false =>
        obtain ⟨ihm, ihc⟩ := ih true
        simp only [collapseRuns.go, hc, if_true, Bool.false_eq_true, if_false]
        constructor
        · intro d hd hwd
          rcases List.mem_cons.mp hd with rfl | h
          · rfl
          · exact ihm d h hwd
        · rw [List.chain'_cons']
          refine ⟨?_, ihc⟩
          intro b hb
          have := head?_go_true_not_ws wsClassCp rest b hb
          simp [this]
    · obtain ⟨ihm, ihc⟩ := ih false
      simp only [collapseRuns.go, hc, Bool.false_eq_true, if_false]
      constructor
      · intro d hd hwd
        rcases List.mem_cons.mp hd with rfl | h
        · exact absurd hwd (by simpa using hc)
        · exact ihm d h hwd
      · rw [List.chain'_cons']
        refine ⟨?_, ihc⟩
        intro b _
        simp only [not_and]
        intro hcw
        exact absurd hcw (by simpa using hc)

/-- `goodC` passes to any suffix (`l = pre ++ t`). -/
theorem goodC_suffix {l t : List Nat} (h : goodC l) (hs : t.IsSuffix l) :
    goodC t := by
  obtain ⟨pre, rfl⟩ := hs
  exact ⟨fun c hc => h.1 c (List.mem_append_right _ hc),
    (List.chain'_append.mp h.2).2.1⟩

/-- `goodC` passes to any prefix (`l = t ++ post`). -/
theorem goodC_prefix {l t : List Nat} (h : goodC l) (hs : t.IsPrefix l) :
    goodC t := by
  obtain ⟨post, rfl⟩ := hs
  exact ⟨fun c hc => h.1 c (List.mem_append_left _ hc),
    (List.chain'_append.mp h.2).1⟩

/-- On a collapsed value the collapsing pass is the identity. -/
theorem goodC_go_fix (l : List Nat) (h : goodC l) :
    collapseRuns.go wsClassCp false l = l ∧
      ((∀ c, l.head? = some c → wsClassCp c = false) →
        collapseRuns.go wsClassCp true l = l) := by
  induction l with
  | nil => exact ⟨rfl, fun _ => rfl⟩
  | cons c rest ih =>
    obtain ⟨hm, hc⟩ := h
    have hrest : goodC rest :=
      ⟨fun d hd => hm d (List.mem_cons_of_mem _ hd), (List.chain'_cons'.mp hc).2⟩
    obtain ⟨ih1, ih2⟩ := ih hrest
    by_cases hw : wsClassCp c
    · have hc32 : c = 32 := hm c (List.mem_cons_self _ _) hw
      have hrw : ∀ d, rest.head? = some d → wsClassCp d = false := by
        intro d hd
        have := (List.chain'_cons'.mp hc).1 d hd
        simp only [not_and] at this
        by_cases h' : wsClassCp d
        · exact absurd h' (this hw)
        · simpa using h'
      constructor
      · simp only [collapseRuns.go, hw, if_true, ih2 hrw, hc32,
          Bool.false_eq_true, if_false]
        simp
        exact fun _ => ih1
      · intro hhead
        have := hhead c rfl
        rw [hw] at this
        exact absurd this (by simp)
    · constructor
      · simp only [collapseRuns.go, hw, Bool.false_eq_true, if_false, ih1]
      · intro _
        simp only [collapseRuns.go, hw, Bool.false_eq_true, if_false, ih1]

theorem dropWhile_head?_not {α : Type} (p : α → Bool) (l : List α) :
    ∀ c, (l.dropWhile p).head? = some c → p c = false := by
  induction l with
  | nil => intro c hc; simp at hc
  | cons d rest ih =>
    intro c hc
    by_cases hd : p d
    · exact ih c (by simpa [List.dropWhile_cons, hd] using hc)
    · simp only [List.dropWhile_cons, hd, Bool.false_eq_true, if_false,
        List.head?_cons, Option.some_inj] at hc
      subst hc
      simpa using hd

/-- The head of `l.rdropWhile p` is the head of `l` (it is a prefix, and
removal happens only at the tail). -/
theorem rdropWhile_head?_not {α : Type} (p q : α → Bool) (l : List α)
    (h : ∀ c, l.head? = some c → q c = false) :
    ∀ c, (l.rdropWhile p).head? = some c → q c = false := by
  intro c hc
  obtain ⟨t, ht⟩ := List.rdropWhile_prefix p l
  apply h
  rw [← ht]
  cases hl : l.rdropWhile p with
  | nil => rw [hl] at hc; exact absurd hc (by simp)
  | cons x xs =>
    rw [hl] at hc
    simp only [List.head?_cons, Option.some_inj] at hc
    subst hc
    simp

/-- The per-value normalization is idempotent. -/
theorem normalizeValue_idem (v : List Nat) :
    normalizeValue (normalizeValue v) = normalizeValue v := by
  have htrim : ∀ w : List Nat,
      trimCp w = (w.dropWhile goIsSpace).rdropWhile goIsSpace := by
    intro w
    rfl
  set D := collapseRuns wsClassCp v with hD
  have hgoodD : goodC D := goodC_go v false
  have hgoodt : goodC (trimCp D) := by
    rw [htrim]
    exact goodC_prefix (goodC_suffix hgoodD (List.dropWhile_suffix _))
      (List.rdropWhile_prefix _ _)
  have hfix : collapseRuns wsClassCp (trimCp D) = trimCp D :=
    (goodC_go_fix _ hgoodt).1
  have hhead : ∀ c, (trimCp D).head? = some c → goIsSpace c = false := by
    rw [htrim]
    exact rdropWhile_head?_not goIsSpace goIsSpace _
      (dropWhile_head?_not goIsSpace D)
  have htt : trimCp (trimCp D) = trimCp D := by
    rw [htrim (trimCp D)]
    have h1 : (trimCp D).dropWhile goIsSpace = trimCp D := by
      cases hl : trimCp D with
      | nil => simp
      | cons x xs =>
        have hx : goIsSpace x = false := hhead x (by rw [hl]; rfl)
        simp [List.dropWhile_cons, hx]
    rw [h1, htrim D, List.rdropWhile_idempotent]
  show trimCp (collapseRuns wsClassCp (trimCp D)) = trimCp D
  rw [hfix, htt]

/-- C10: `Normalize` is idempotent — normalizing twice leaves the same
entry sequence as normalizing once, for every header. -/
theorem c10_normalize_idempotent (h : Header) :
    h.normalize.normalize = h.normalize := by
  simp only [Header.normalize, List.map_map]
  congr 1
  apply List.map_congr_left
  intro kv _
  simp only [Function.comp_apply, normalizeValue_idem]

/-! ## C5: which entries `WriteTo` renders -/

/-- Whether the registry marks this key unique (false for unregistered
keys). -/
def uniqueKey (k : List Nat) : Bool :=
  ((syntaxFor k).map (·.unique)).getD false

/-- The semantic type used to render this key (Opaque for unregistered
keys). -/
def typeFor (k : List Nat) : HeaderType :=
  ((syntaxFor k).map (·.type)).getD .opq

/-- Spec-side description of the writer loop, following the claim's
words: iterate the entries in order and render each one except — entries
with empty value unless `RenderBlank`; `Bcc` unless `RenderBCC`;
`Return-Path` unless `RenderReturnPath`; and, for a key registered as
unique, an entry whose key some prior **rendered** entry already has.
`rendered` accumulates the rendered entries of this call. -/
def writeToSpecLoop (or : Oracles) (o : Options') (rendered : List KV) :
    List KV → Except RenderErr (List KV)
  | [] => .ok rendered
  | kv :: rest =>
    if (!o.renderBlank && kv.value.isEmpty) ||
        (kv.key == str "Bcc" && !o.renderBCC) ||
        (kv.key == str "Return-Path" && !o.renderReturnPath) ||
        (uniqueKey kv.key && rendered.any (fun r => r.key == kv.key)) then
      writeToSpecLoop or o rendered rest
    else
      match writeHeader or o (typeFor kv.key) kv.key kv.value with
      | .error e => .error e
      | .ok _ => writeToSpecLoop or o (rendered ++ [kv]) rest

/-- Spec-side writer. -/
def writeToSpec (h : Header) (or : Oracles) (o : Options') :
    Except RenderErr (List KV) :=
  writeToSpecLoop or o [] h.headers

theorem writeToLoop_eq_spec (or : Oracles) (o : Options') :
    ∀ (l : List KV) (seen : List (List Nat)) (rendered : List KV),
      (∀ k, seen.contains k =
        (uniqueKey k && rendered.any (fun r => r.key == k))) →
      writeToLoop or o seen rendered l = writeToSpecLoop or o rendered l := by
  intro l
  induction l with
  | nil => intro seen rendered _; rfl
  | cons kv rest ih =>
    intro seen rendered hinv
    simp only [writeToLoop, writeToSpecLoop]
    by_cases h1 : (!o.renderBlank && kv.value.isEmpty) = true
    · simp [h1, ih _ _ hinv]
    · simp only [h1, Bool.false_eq_true, if_false]
      by_cases h2 : (kv.key == str "Bcc" && !o.renderBCC) = true
      · simp [h1, h2, ih _ _ hinv]
      · simp only [h2, Bool.false_eq_true, if_false]
        by_cases h3 : (kv.key == str "Return-Path" && !o.renderReturnPath) = true
        · simp [h1, h2, h3, ih _ _ hinv]
        · simp only [h3, Bool.false_eq_true, if_false]
          cases hs : syntaxFor kv.key with
          | none =>
            have hu : uniqueKey kv.key = false := by
              simp [uniqueKey, hs]
            have ht : typeFor kv.key = .opq := by
              simp [typeFor, hs]
            simp only [h1, h2, h3, hu, Bool.false_and, Bool.or_false,
              Bool.false_eq_true, if_false, ht]
            cases writeHeader or o .opq kv.key kv.value with
            | error e => rfl
            | ok ls =>
              apply ih
              intro k
              rw [hinv k]
              by_cases hk : k = kv.key
              · subst hk; simp [hu]
              · have : (kv.key == k) = false := by
                  simp [BEq.symm_false]
                  exact fun hh => hk hh.symm
                simp [List.any_append, this]
          | some syn =>
            have hu : uniqueKey kv.key = syn.unique := by
              simp [uniqueKey, hs]
            have ht : typeFor kv.key = syn.type := by
              simp [typeFor, hs]
            simp only [h1, h2, h3, hu, ht, Bool.false_eq_true, if_false,
              hinv kv.key]
            cases hsu : syn.unique with
            | false =>
              simp only [Bool.false_and, Bool.false_eq_true, if_false]
              cases writeHeader or o syn.type kv.key kv.value with
              | error e => rfl
              | ok ls =>
                apply ih
                intro k
                rw [hinv k]
                by_cases hk : k = kv.key
                · subst hk; simp [hu, hsu]
                · have : (kv.key == k) = false := by
                    simp
                    exact fun hh => hk hh.symm
                  simp [List.any_append, this]
            | true =>
              simp only [Bool.true_and]
              cases hr : rendered.any (fun r => r.key == kv.key) with
              | true => simp [ih _ _ hinv]
              | false =>
                simp only [Bool.false_eq_true, if_false]
                cases writeHeader or o syn.type kv.key kv.value with
                | error e => rfl
                | ok ls =>
                  apply ih
                  intro k
                  have hcc : (kv.key :: seen).contains k =
                      (k == kv.key || seen.contains k) := rfl
                  rw [if_pos trivial, hcc, hinv k]
                  by_cases hk : k = kv.key
                  · subst hk
                    simp [hu, hsu, List.any_append]
                  · have hne : (k == kv.key) = false := by
                      simp [hk]
                    have hne' : (kv.key == k) = false := by
                      simp
                      exact fun hh => hk hh.symm
                    simp [hne, hne', List.any_append]

/-- C5: `WriteTo` renders exactly the entries the claim describes, in
order: each entry is rendered unless its value is empty with `RenderBlank`
off, its key is `Bcc` with `RenderBCC` off or `Return-Path` with
`RenderReturnPath` off, or its key is registered unique and a prior entry
with the same key was already rendered in this call (`writeToSpec` states
this description; the theorem says `WriteTo` implements it for every
header, options and oracle assignment, including the abort-on-error
behavior). -/
theorem c5_writeTo_skips (h : Header) (or : Oracles) (o : Options') :
    h.writeTo or o = writeToSpec h or o :=
  writeToLoop_eq_spec or o h.headers [] [] (fun k => by simp)

/-! ## C6: the Message-ID validator -/

theorem mem_runs_cls {p : Nat → Bool} {s s' : List Nat} :
    s' ∈ runs (.cls p) s ↔ ∃ c, s = c :: s' ∧ p c = true := by
  cases s with
  | nil => simp [runs]
  | cons c t =>
    by_cases hc : p c
    · simp only [runs, hc, if_true, List.mem_singleton]
      constructor
      · rintro rfl; exact ⟨c, rfl, hc⟩
      · rintro ⟨c', hc', _⟩
        injection hc' with h1 h2
        exact h2.symm
    · simp only [runs, hc, Bool.false_eq_true, if_false, List.not_mem_nil,
        false_iff, not_exists]
      rintro c' ⟨hc', hpc'⟩
      injection hc' with h1 h2
      subst h1
      exact absurd hpc' (by simpa using hc)

theorem mem_runs_cat {a b : Re} {s s'' : List Nat} :
    s'' ∈ runs (.cat a b) s ↔
      ∃ s', s' ∈ runs a s ∧ s'' ∈ runs b s' := by
  simp [runs, List.mem_flatMap]

theorem starRunsF_self (f : List Nat → List (List Nat)) (n : Nat)
    (s : List Nat) : s ∈ starRunsF f n s := by
  cases n <;> simp [starRunsF]

theorem mem_runs_star_self (a : Re) (s : List Nat) :
    s ∈ runs (.star a) s := by
  simp only [runs]
  exact starRunsF_self _ _ _

theorem starRunsF_upper {f : List Nat → List (List Nat)} {A : Nat → Bool}
    (Hf : ∀ u u', u' ∈ f u → ∃ t, u = t ++ u' ∧ t.all A = true) :
    ∀ (n : Nat) (s s' : List Nat), s' ∈ starRunsF f n s →
      ∃ t, s = t ++ s' ∧ t.all A = true := by
  intro n
  induction n with
  | zero =>
    intro s s' h
    simp only [starRunsF, List.mem_singleton] at h
    subst h
    exact ⟨[], rfl, rfl⟩
  | succ n ih =>
    intro s s' h
    simp only [starRunsF, List.mem_cons, List.mem_flatMap,
      List.mem_filter] at h
    rcases h with rfl | ⟨u, ⟨hu, _⟩, hs'⟩
    · exact ⟨[], rfl, rfl⟩
    · obtain ⟨t1, hs1, h1⟩ := Hf s u hu
      obtain ⟨t2, hu2, h2⟩ := ih u s' hs'
      subst hs1
      subst hu2
      exact ⟨t1 ++ t2, by simp, by simp only [List.all_append, h1, h2]; rfl⟩

theorem starRunsF_cls_lower {p : Nat → Bool} :
    ∀ (n : Nat) (t s' : List Nat), t.all p = true → t.length ≤ n →
      s' ∈ starRunsF (runs (.cls p)) n (t ++ s') := by
  intro n
  induction n with
  | zero =>
    intro t s' hall hlen
    have ht : t = [] := List.length_eq_zero.mp (Nat.le_zero.mp hlen)
    subst ht
    exact starRunsF_self _ _ _
  | succ n ih =>
    intro t s' hall hlen
    cases t with
    | nil => exact starRunsF_self _ _ _
    | cons c t' =>
      simp only [List.all_cons, Bool.and_eq_true] at hall
      simp only [starRunsF, List.mem_cons, List.mem_flatMap, List.mem_filter]
      right
      refine ⟨t' ++ s', ⟨?_, by simp⟩, ih t' s' hall.2
        (Nat.le_of_succ_le_succ (by simpa using hlen))⟩
      rw [List.cons_append]
      exact mem_runs_cls.mpr ⟨c, rfl, hall.1⟩

theorem mem_runs_star_cls {p : Nat → Bool} {s s' : List Nat} :
    s' ∈ runs (.star (.cls p)) s ↔ ∃ t, s = t ++ s' ∧ t.all p = true := by
  constructor
  · intro h
    simp only [runs] at h
    exact starRunsF_upper
      (fun u u' hu => by
        obtain ⟨c, rfl, hc⟩ := mem_runs_cls.mp hu
        exact ⟨[c], rfl, by simpa using hc⟩) _ _ _ h
  · rintro ⟨t, rfl, hall⟩
    simp only [runs]
    exact starRunsF_cls_lower _ t s' hall (by simp)

theorem mem_runs_plus_cls {p : Nat → Bool} {s s' : List Nat} :
    s' ∈ runs (Re.plus (.cls p)) s ↔
      ∃ t, t ≠ [] ∧ t.all p = true ∧ s = t ++ s' := by
  constructor
  · intro h
    obtain ⟨mid, h1, h2⟩ := mem_runs_cat.mp h
    obtain ⟨c, rfl, hc⟩ := mem_runs_cls.mp h1
    obtain ⟨t2, rfl, h2a⟩ := mem_runs_star_cls.mp h2
    exact ⟨c :: t2, by simp, by simp [hc, h2a], rfl⟩
  · rintro ⟨t, hne, hall, rfl⟩
    cases t with
    | nil => exact absurd rfl hne
    | cons c t' =>
      simp only [List.all_cons, Bool.and_eq_true] at hall
      refine mem_runs_cat.mpr ⟨t' ++ s', ?_, ?_⟩
      · rw [List.cons_append]
        exact mem_runs_cls.mpr ⟨c, rfl, hall.1⟩
      · exact mem_runs_star_cls.mpr ⟨t', rfl, hall.2⟩

/-- Each iteration of the `(?:\.atext+)` star body consumes a nonempty
all-atext chunk (the dot is itself in the atext class). -/
theorem dotsBody_chunk {u u' : List Nat}
    (h : u' ∈ runs (.cat (.lit 46) (Re.plus (.cls atextB))) u) :
    ∃ t, u = t ++ u' ∧ t.all atextB = true := by
  obtain ⟨mid, h1, h2⟩ := mem_runs_cat.mp h
  obtain ⟨c, rfl, hc⟩ := mem_runs_cls.mp h1
  obtain ⟨t2, hne, hall, rfl⟩ := mem_runs_plus_cls.mp h2
  have hc46 : c = 46 := by simpa using hc
  subst hc46
  have h46 : atextB 46 = true := by decide
  exact ⟨46 :: t2, rfl, by simp [hall, h46]⟩

/-- What the Message-ID regex actually accepts: some *prefix* of the
value matches optional whitespace, `'<'`, a nonempty run of bytes from
the (extended) atext class, `'@'`, a nonempty class run, a `'.'`, another
nonempty class run, and `'>'` — anything may follow, and the class
includes `'.'`, `','` and `'/'` via the range 43-47 written as
plus-hyphen-slash in the source. -/
def MsgIdOk (s : List Nat) : Prop :=
  ∃ w l r1 r2 rest : List Nat,
    s = w ++ 60 :: (l ++ 64 :: (r1 ++ 46 :: (r2 ++ 62 :: rest))) ∧
    (∀ b ∈ w, reWsB b = true) ∧
    l ≠ [] ∧ (∀ b ∈ l, atextB b = true) ∧
    r1 ≠ [] ∧ (∀ b ∈ r1, atextB b = true) ∧
    r2 ≠ [] ∧ (∀ b ∈ r2, atextB b = true)

theorem validMessageId_iff_MsgIdOk (s : List Nat) :
    validMessageId s = true ↔ MsgIdOk s := by
  have hmem : validMessageId s = true ↔ ∃ s', s' ∈ runs messageIdRe s := by
    simp only [validMessageId, reMatchStart, Bool.not_eq_true',
      List.isEmpty_eq_false_iff_exists_mem]
  rw [hmem]
  constructor
  · rintro ⟨s9, h⟩
    simp only [messageIdRe] at h
    obtain ⟨s1, hws, h⟩ := mem_runs_cat.mp h
    obtain ⟨s2, hlt, h⟩ := mem_runs_cat.mp h
    obtain ⟨s3, hloc, h⟩ := mem_runs_cat.mp h
    obtain ⟨s4, hdots, h⟩ := mem_runs_cat.mp h
    obtain ⟨s5, hat, h⟩ := mem_runs_cat.mp h
    obtain ⟨s6, hdom, h⟩ := mem_runs_cat.mp h
    obtain ⟨s7, hdot2, h⟩ := mem_runs_cat.mp h
    obtain ⟨s8, hgt, hws2⟩ := mem_runs_cat.mp h
    obtain ⟨w, rfl, hwall⟩ := mem_runs_star_cls.mp hws
    obtain ⟨c1, he1, hc1⟩ := mem_runs_cls.mp hlt
    have hc1' : c1 = 60 := by simpa using hc1
    subst hc1'
    obtain ⟨t1, ht1ne, ht1all, rfl⟩ := mem_runs_plus_cls.mp hloc
    obtain ⟨t2, hs3, ht2all⟩ :=
      starRunsF_upper (fun u u' hu => dotsBody_chunk hu) _ _ _ hdots
    obtain ⟨c2, he2, hc2⟩ := mem_runs_cls.mp hat
    have hc2' : c2 = 64 := by simpa using hc2
    subst hc2'
    obtain ⟨r1, hr1ne, hr1all, rfl⟩ := mem_runs_plus_cls.mp hdom
    obtain ⟨mid, hd1, hd2⟩ := mem_runs_cat.mp hdot2
    obtain ⟨c3, he3, hc3⟩ := mem_runs_cls.mp hd1
    have hc3' : c3 = 46 := by simpa using hc3
    subst hc3'
    obtain ⟨r2, hr2ne, hr2all, rfl⟩ := mem_runs_plus_cls.mp hd2
    obtain ⟨c4, he4, hc4⟩ := mem_runs_cls.mp hgt
    have hc4' : c4 = 62 := by simpa using hc4
    subst hc4'
    refine ⟨w, t1 ++ t2, r1, r2, s8, ?_, ?_, by simp [ht1ne], ?_, hr1ne, ?_,
      hr2ne, ?_⟩
    · rw [he1, hs3, he2, he3, he4]
      simp
    · intro b hb
      exact (List.all_eq_true.mp hwall) b hb
    · intro b hb
      rcases List.mem_append.mp hb with h' | h'
      · exact (List.all_eq_true.mp ht1all) b h'
      · exact (List.all_eq_true.mp ht2all) b h'
    · intro b hb
      exact (List.all_eq_true.mp hr1all) b hb
    · intro b hb
      exact (List.all_eq_true.mp hr2all) b hb
  · rintro ⟨w, l, r1, r2, rest, rfl, hw, hlne, hl, hr1ne, hr1, hr2ne, hr2⟩
    refine ⟨rest, ?_⟩
    simp only [messageIdRe]
    refine mem_runs_cat.mpr ⟨60 :: (l ++ 64 :: (r1 ++ 46 :: (r2 ++ 62 :: rest))),
      mem_runs_star_cls.mpr ⟨w, rfl, List.all_eq_true.mpr hw⟩, ?_⟩
    refine mem_runs_cat.mpr ⟨l ++ 64 :: (r1 ++ 46 :: (r2 ++ 62 :: rest)),
      mem_runs_cls.mpr ⟨60, rfl, by rfl⟩, ?_⟩
    refine mem_runs_cat.mpr ⟨64 :: (r1 ++ 46 :: (r2 ++ 62 :: rest)),
      mem_runs_plus_cls.mpr ⟨l, hlne, List.all_eq_true.mpr hl, rfl⟩, ?_⟩
    refine mem_runs_cat.mpr ⟨64 :: (r1 ++ 46 :: (r2 ++ 62 :: rest)),
      mem_runs_star_self _ _, ?_⟩
    refine mem_runs_cat.mpr ⟨r1 ++ 46 :: (r2 ++ 62 :: rest),
      mem_runs_cls.mpr ⟨64, rfl, by rfl⟩, ?_⟩
    refine mem_runs_cat.mpr ⟨46 :: (r2 ++ 62 :: rest),
      mem_runs_plus_cls.mpr ⟨r1, hr1ne, List.all_eq_true.mpr hr1, rfl⟩, ?_⟩
    refine mem_runs_cat.mpr ⟨62 :: rest, ?_, ?_⟩
    · refine mem_runs_cat.mpr ⟨r2 ++ 62 :: rest,
        mem_runs_cls.mpr ⟨46, rfl, by rfl⟩,
        mem_runs_plus_cls.mpr ⟨r2, hr2ne, List.all_eq_true.mpr hr2, rfl⟩⟩
    · refine mem_runs_cat.mpr ⟨rest, mem_runs_cls.mpr ⟨62, rfl, by rfl⟩,
        mem_runs_star_self _ _⟩

/-- The atext character class exactly as the claim writes it:
`A-Za-z0-9` and `! # $ % & ' * + - / = ? ^ _` backquote `{ | } ~` — with
no comma and no dot. -/
def claimAtextB (b : Nat) : Bool :=
  (decide (97 ≤ b) && decide (b ≤ 122)) ||
  (decide (65 ≤ b) && decide (b ≤ 90)) ||
  (decide (48 ≤ b) && decide (b ≤ 57)) ||
  b == 33 || b == 35 || b == 36 || b == 37 || b == 38 || b == 39 ||
  b == 42 || b == 43 || b == 45 || b == 47 ||
  b == 61 || b == 63 || b == 94 || b == 95 || b == 96 ||
  b == 123 || b == 124 || b == 125 || b == 126

/-- Greedy consumption of `('.' atext-run)*` for the claim-side checker
(deterministic because the claim's class excludes the dot). -/
def claimDots : Nat → List Nat → List Nat
  | 0, s => s
  | fuel + 1, s =>
    match s with
    | 46 :: rest =>
      let r := rest.takeWhile claimAtextB
      if r.isEmpty then 46 :: rest
      else claimDots fuel (rest.drop r.length)
    | s => s

/-- The Message-ID rule exactly as the claim states it: optional
surrounding whitespace, `'<'`, one or more runs of the claim's atext
class separated by single dots, `'@'`, one or more dot-separated atext
runs, `'>'`, optional trailing whitespace, and nothing else. -/
def claimMessageId (s : List Nat) : Bool :=
  match s.dropWhile reWsB with
  | 60 :: s2 =>
    let r1 := s2.takeWhile claimAtextB
    if r1.isEmpty then false
    else
      match claimDots s2.length (s2.drop r1.length) with
      | 64 :: s4 =>
        let r2 := s4.takeWhile claimAtextB
        if r2.isEmpty then false
        else
          match claimDots s4.length (s4.drop r2.length) with
          | 62 :: s6 => (s6.dropWhile reWsB).isEmpty
          | _ => false
      | _ => false
  | _ => false

/-- Counterexample for C6, in both directions.  `"<a@b.c> junk!"` is
accepted by the code (the pattern has no end anchor, so it matches a
prefix) but is invalid under the claim's rule ("nothing else");
`"<a@b>"` is valid under the claim's rule (domain of one atext run) but
rejected by the code (the regex source reads
`@atext+(?:\.atext+)>` — the domain's dot group has no `*`, so a dot in
the domain is mandatory). -/
theorem c6_messageId_counterexample :
    validMessageId (str "<a@b.c> junk!") = true ∧
    claimMessageId (str "<a@b.c> junk!") = false ∧
    validMessageId (str "<a@b>") = false ∧
    claimMessageId (str "<a@b>") = true := by
  refine ⟨by rfl, by rfl, by rfl, by rfl⟩

/-- C6 (amended): the Validator accepts a value of semantic type
MessageID iff some **prefix** of the value matches: optional whitespace,
`'<'`, a nonempty run of the extended atext class (which, via the
range written plus-hyphen-slash in the source, also contains comma, dot
and slash), `'@'`, a nonempty class run containing at least one interior
dot (the mandatory `(?:\.atext+)` group), and `'>'` — with arbitrary
bytes allowed after the `'>'` (no end anchor); for MessageIDList, the
value is split on commas and every segment must independently satisfy
that prefix rule. -/
theorem c6_messageId_amended :
    (∀ s, validMessageId s = true ↔ MsgIdOk s) ∧
    (∀ s, validMessageIdList s = true ↔
      ∀ seg ∈ splitByte 44 s, MsgIdOk seg) := by
  refine ⟨validMessageId_iff_MsgIdOk, ?_⟩
  intro s
  simp only [validMessageIdList, List.all_eq_true]
  constructor
  · intro h seg hseg
    exact (validMessageId_iff_MsgIdOk seg).mp (h seg hseg)
  · intro h seg hseg
    exact (validMessageId_iff_MsgIdOk seg).mpr (h seg hseg)

/-! ## C1, C2: line discipline of the folding serializer

The central invariant of the scanning loop.  A closed line beyond the
first is "good" when its content fits in 78 columns, or it was closed at
a caller-embedded CR/LF (those flushes bypass the column check), or it
consists of a single flushed token possibly preceded by a single carried
byte (a long token emitted unsplit). -/

/-- A line consisting of one flushed token, possibly preceded by one
carried byte (the folding whitespace that ended the previous token, or
the synthesized tab / skipped byte after an embedded break). -/
def ShapeTok (units : List (List Nat)) : Prop :=
  (∃ t, units = [t]) ∨ ∃ u t, units = [u, t] ∧ u.length = 1

/-- What the 78-column discipline guarantees for a closed line beyond the
first. -/
def GoodLine (l : Line) : Prop :=
  l.content.length ≤ 78 ∨ l.cause = .embedded ∨ ShapeTok l.units

/-- The loop invariant of `foldLoop`, tied to the initial `Key: ` prefix
`pfx`. -/
structure FoldInv (pfx : List Nat) (lines : List Line)
    (cur : List (List Nat)) (col : Nat) (pending : List Nat)
    (first : Bool) : Prop where
  colEq : col = cur.flatten.length
  goodClosed : ∀ l ∈ lines.drop 1, GoodLine l
  curOK : lines = [] ∨ cur.flatten.length ≤ 78 ∨ ShapeTok cur
  firstLines : first = true → lines = []
  unitsNE : ∀ u ∈ cur, u ≠ []
  pendingE : pending = [] → first = true ∧ cur = [pfx] ∧ col = pfx.length
  pendingNoCRLF : ∀ b ∈ pending, crlfB b = false

theorem flatten_len_zero {cur : List (List Nat)}
    (hne : ∀ u ∈ cur, u ≠ []) (h : cur.flatten.length = 0) : cur = [] := by
  cases cur with
  | nil => rfl
  | cons u rest =>
    exfalso
    have hu : u ≠ [] := hne u (List.mem_cons_self _ _)
    have : 0 < u.length := List.length_pos.mpr hu
    simp only [List.flatten_cons, List.length_append] at h
    omega

theorem flatten_len_one {cur : List (List Nat)}
    (hne : ∀ u ∈ cur, u ≠ []) (h : cur.flatten.length = 1) :
    ∃ u, cur = [u] ∧ u.length = 1 := by
  cases cur with
  | nil => simp at h
  | cons u rest =>
    have hu : u ≠ [] := hne u (List.mem_cons_self _ _)
    have hupos : 0 < u.length := List.length_pos.mpr hu
    simp only [List.flatten_cons, List.length_append] at h
    have hrest : rest.flatten.length = 0 := by omega
    have : rest = [] := flatten_len_zero
      (fun v hv => hne v (List.mem_cons_of_mem _ hv)) hrest
    subst this
    exact ⟨u, rfl, by omega⟩

/-- Membership in `(l1 ++ l2).drop 1` splits by whether `l1` supplied the
head. -/
theorem drop_one_append_cases {α : Type} {l1 l2 : List α} {x : α}
    (hx : x ∈ (l1 ++ l2).drop 1) :
    x ∈ l1.drop 1 ∨ (l1 ≠ [] ∧ x ∈ l2) ∨ (l1 = [] ∧ x ∈ l2.drop 1) := by
  cases l1 with
  | nil => exact Or.inr (Or.inr ⟨rfl, by simpa using hx⟩)
  | cons a l1' =>
    have hx' : x ∈ l1' ++ l2 := by simpa using hx
    rcases List.mem_append.mp hx' with h | h
    · exact Or.inl (by simpa using h)
    · exact Or.inr (Or.inl ⟨by simp, h⟩)

/-- Pushing a line that satisfies `P` (whenever it is not the first)
preserves `P` for all lines beyond the first. -/
theorem goodClosed_push {P : Line → Prop} {lines : List Line} {E : Line}
    (hg : ∀ l ∈ lines.drop 1, P l)
    (hE : lines ≠ [] → P E) :
    ∀ l ∈ (lines ++ [E]).drop 1, P l := by
  intro l hl
  rcases drop_one_append_cases hl with h | ⟨hne, h⟩ | ⟨_, h⟩
  · exact hg l h
  · rcases List.mem_singleton.mp h with rfl
    exact hE hne
  · simp at h

/-- Pushing two lines, the second satisfying `P` outright. -/
theorem goodClosed_push2 {P : Line → Prop} {lines : List Line} {E F : Line}
    (hg : ∀ l ∈ lines.drop 1, P l)
    (hE : lines ≠ [] → P E) (hF : P F) :
    ∀ l ∈ (lines ++ [E, F]).drop 1, P l := by
  intro l hl
  rcases drop_one_append_cases hl with h | ⟨hne, h⟩ | ⟨_, h⟩
  · exact hg l h
  · rcases List.mem_cons.mp h with rfl | h'
    · exact hE hne
    · rcases List.mem_singleton.mp h' with rfl
      exact hF
  · rcases List.mem_singleton.mp (by simpa using h) with rfl
    exact hF

theorem wsB_not_crlf {b : Nat} (h : wsB b = true) : crlfB b = false := by
  simp only [wsB, Bool.or_eq_true, beq_iff_eq] at h
  simp only [crlfB, Bool.or_eq_false_iff, beq_eq_false_iff_ne]
  omega

/-- The epilogue of `writeHeader` preserves the line discipline: every
line it pushes beyond the first is good. -/
theorem foldFinish_good {pfx : List Nat} {lines : List Line}
    {cur : List (List Nat)} {col : Nat} {pending : List Nat} {first : Bool}
    (hInv : FoldInv pfx lines cur col pending first) {ls : List Line}
    (h : foldFinish lines cur col pending first = some ls) :
    ∀ l ∈ ls.drop 1, GoodLine l := by
  unfold foldFinish at h
  by_cases hp : pending.isEmpty
  · rw [if_pos hp] at h
    by_cases hc : col ≠ 0
    · rw [if_pos hc, Option.some_inj] at h
      subst h
      obtain ⟨hfirst, hcur, _⟩ := hInv.pendingE (List.isEmpty_iff.mp hp)
      have hl0 : lines = [] := hInv.firstLines hfirst
      subst hl0
      intro l hl
      simp at hl
    · rw [if_neg hc, Option.some_inj] at h
      subst h
      exact hInv.goodClosed
  · rw [if_neg hp] at h
    have hpne : pending ≠ [] := fun he => hp (List.isEmpty_iff.mpr he)
    by_cases hq : 78 < col + pending.length ∧ first = false ∧ 1 < col
    · rw [if_pos hq, Option.some_inj] at h
      subst h
      refine goodClosed_push2 hInv.goodClosed ?_ ?_
      · intro hne
        rcases hInv.curOK with h0 | h0 | h0
        · exact absurd h0 hne
        · exact Or.inl h0
        · exact Or.inr (Or.inr h0)
      · exact Or.inr (Or.inr (Or.inl ⟨pending, rfl⟩))
    · rw [if_neg hq, Option.some_inj] at h
      subst h
      refine goodClosed_push hInv.goodClosed ?_
      intro hne
      by_cases ha : 78 < col + pending.length
      · by_cases hb : first = false
        · have hcle : col ≤ 1 := by
            by_contra hcg
            exact hq ⟨ha, hb, by omega⟩
          rcases Nat.lt_or_ge col 1 with h1 | h1
          · have hc0 : col = 0 := by omega
            have hcur : cur = [] := flatten_len_zero hInv.unitsNE
              (by rw [← hInv.colEq]; exact hc0)
            subst hcur
            exact Or.inr (Or.inr (Or.inl ⟨pending, by simp⟩))
          · have hc1 : col = 1 := by omega
            obtain ⟨u, hcur, hu1⟩ := flatten_len_one hInv.unitsNE
              (by rw [← hInv.colEq]; exact hc1)
            subst hcur
            exact Or.inr (Or.inr (Or.inr ⟨u, pending, by simp, hu1⟩))
        · have hf : first = true := by
            cases first
            · exact absurd rfl hb
            · rfl
          exact absurd (hInv.firstLines hf) hne
      · refine Or.inl ?_
        simp only [Line.content, List.flatten_append, List.flatten_cons,
          List.flatten_nil, List.append_nil, List.length_append]
        rw [← hInv.colEq]
        omega

/-- Accumulating a non-CR/LF byte into the pending token preserves the
invariant. -/
theorem FoldInv.pendingStep {pfx : List Nat} {lines : List Line}
    {cur : List (List Nat)} {col : Nat} {pending : List Nat} {first : Bool}
    (hInv : FoldInv pfx lines cur col pending first) {b : Nat}
    (hb : crlfB b = false) :
    FoldInv pfx lines cur col (pending ++ [b]) first :=
  { colEq := hInv.colEq, goodClosed := hInv.goodClosed,
    curOK := hInv.curOK, firstLines := hInv.firstLines,
    unitsNE := hInv.unitsNE,
    pendingE := fun he => absurd he (by simp),
    pendingNoCRLF := fun c hc => by
      rcases List.mem_append.mp hc with h' | h'
      · exact hInv.pendingNoCRLF c h'
      · rcases List.mem_singleton.mp h' with rfl
        exact hb }

/-- The state after an embedded break that reuses the caller's
whitespace: fresh empty line at column 0. -/
theorem FoldInv.afterEmbeddedWs {pfx : List Nat} {lines : List Line}
    {cur : List (List Nat)} {col : Nat} {pending : List Nat} {first : Bool}
    (hInv : FoldInv pfx lines cur col pending first) {w : Nat}
    (hw : crlfB w = false) :
    FoldInv pfx (lines ++ [⟨cur ++ [pending], .embedded⟩]) [] 0 [w] false :=
  { colEq := by simp
    goodClosed := goodClosed_push hInv.goodClosed
      (fun _ => Or.inr (Or.inl rfl))
    curOK := Or.inr (Or.inl (by simp))
    firstLines := fun hf => by simp at hf
    unitsNE := fun u hu => by simp at hu
    pendingE := fun he => by simp at he
    pendingNoCRLF := fun c hc => by
      rcases List.mem_singleton.mp hc with rfl
      exact hw }

/-- The state after an embedded break that synthesizes a tab: fresh line
holding one tab, column 1. -/
theorem FoldInv.afterEmbeddedTab {pfx : List Nat} {lines : List Line}
    {cur : List (List Nat)} {col : Nat} {pending : List Nat} {first : Bool}
    (hInv : FoldInv pfx lines cur col pending first) {w : Nat}
    (hw : crlfB w = false) :
    FoldInv pfx (lines ++ [⟨cur ++ [pending], .embedded⟩]) [[9]] 1 [w]
      false :=
  { colEq := by simp
    goodClosed := goodClosed_push hInv.goodClosed
      (fun _ => Or.inr (Or.inl rfl))
    curOK := Or.inr (Or.inl (by simp))
    firstLines := fun hf => by simp at hf
    unitsNE := fun u hu => by
      rcases List.mem_singleton.mp hu with rfl
      simp
    pendingE := fun he => by simp at he
    pendingNoCRLF := fun c hc => by
      rcases List.mem_singleton.mp hc with rfl
      exact hw }

/-- The state after a skipped byte following an embedded break with an
empty pending token: only `pending` and `first` change. -/
theorem FoldInv.afterSkip {pfx : List Nat} {lines : List Line}
    {cur : List (List Nat)} {col : Nat} {first : Bool}
    (hInv : FoldInv pfx lines cur col [] first) {w : Nat}
    (hw : crlfB w = false) :
    FoldInv pfx lines cur col [w] false :=
  { colEq := hInv.colEq, goodClosed := hInv.goodClosed,
    curOK := hInv.curOK,
    firstLines := fun hf => by simp at hf
    unitsNE := hInv.unitsNE,
    pendingE := fun he => by simp at he
    pendingNoCRLF := fun c hc => by
      rcases List.mem_singleton.mp hc with rfl
      exact hw }

/-- The state after a wrap fold: the closed line was within discipline,
the fresh line is the single flushed token. -/
theorem FoldInv.afterWrap {pfx : List Nat} {lines : List Line}
    {cur : List (List Nat)} {col : Nat} {pending : List Nat} {first : Bool}
    (hInv : FoldInv pfx lines cur col pending first)
    (hpne : pending ≠ []) {v : Nat} (hv : wsB v = true) :
    FoldInv pfx (lines ++ [⟨cur, .wrap⟩]) [pending] (0 + pending.length)
      [v] false :=
  { colEq := by simp
    goodClosed := goodClosed_push hInv.goodClosed (fun hne => by
      rcases hInv.curOK with h0 | h0 | h0
      · exact absurd h0 hne
      · exact Or.inl h0
      · exact Or.inr (Or.inr h0))
    curOK := Or.inr (Or.inr (Or.inl ⟨pending, rfl⟩))
    firstLines := fun hf => by simp at hf
    unitsNE := fun u hu => by
      rcases List.mem_singleton.mp hu with rfl
      exact hpne
    pendingE := fun he => by simp at he
    pendingNoCRLF := fun c hc => by
      rcases List.mem_singleton.mp hc with rfl
      exact wsB_not_crlf hv }

/-- The state after an in-discipline (non-folding) flush. -/
theorem FoldInv.afterFlush {pfx : List Nat} {lines : List Line}
    {cur : List (List Nat)} {col : Nat} {pending : List Nat} {first : Bool}
    (hInv : FoldInv pfx lines cur col pending first)
    (hpne : pending ≠ [])
    (hok : col + pending.length ≤ 78 ∨ first = true) {v : Nat}
    (hv : wsB v = true) :
    FoldInv pfx lines (cur ++ [pending]) (col + pending.length) [v]
      false :=
  { colEq := by simp [hInv.colEq]
    goodClosed := hInv.goodClosed
    curOK := by
      rcases hok with h0 | h0
      · refine Or.inr (Or.inl ?_)
        simp only [List.flatten_append, List.flatten_cons, List.flatten_nil,
          List.append_nil, List.length_append]
        rw [← hInv.colEq]
        exact h0
      · exact Or.inl (hInv.firstLines h0)
    firstLines := fun hf => by simp at hf
    unitsNE := fun u hu => by
      rcases List.mem_append.mp hu with h' | h'
      · exact hInv.unitsNE u h'
      · rcases List.mem_singleton.mp h' with rfl
        exact hpne
    pendingE := fun he => by simp at he
    pendingNoCRLF := fun c hc => by
      rcases List.mem_singleton.mp hc with rfl
      exact wsB_not_crlf hv }

/-- The state after a whitespace byte seen with an empty pending token:
`tokenStart` moves to it, nothing is written. -/
theorem FoldInv.afterWsEmpty {pfx : List Nat} {lines : List Line}
    {cur : List (List Nat)} {col : Nat} {first : Bool}
    (hInv : FoldInv pfx lines cur col [] first) {v : Nat}
    (hv : wsB v = true) :
    FoldInv pfx lines cur (col + ([] : List Nat).length) [v] first :=
  { colEq := by simpa using hInv.colEq
    goodClosed := hInv.goodClosed
    curOK := hInv.curOK
    firstLines := hInv.firstLines
    unitsNE := hInv.unitsNE
    pendingE := fun he => by simp at he
    pendingNoCRLF := fun c hc => by
      rcases List.mem_singleton.mp hc with rfl
      exact wsB_not_crlf hv }

/-- Main induction: from any state satisfying the invariant, with enough
fuel, every line of the result beyond the first is good. -/
theorem foldLoop_good (pfx : List Nat) :
    ∀ (n : Nat) (rest : List Nat) (lines : List Line)
      (cur : List (List Nat)) (col : Nat) (pending : List Nat)
      (first inStr : Bool) (ls : List Line),
      rest.length ≤ n →
      FoldInv pfx lines cur col pending first →
      foldLoop lines cur col pending first inStr n rest = some ls →
      ∀ l ∈ ls.drop 1, GoodLine l := by
  intro n
  induction n with
  | zero =>
    intro rest lines cur col pending first inStr ls hl hInv h
    have hrest : rest = [] := List.length_eq_zero.mp (Nat.le_zero.mp hl)
    subst hrest
    exact foldFinish_good hInv h
  | succ n ih =>
    intro rest lines cur col pending first inStr ls hl hInv h
    cases rest with
    | nil => exact foldFinish_good hInv h
    | cons v rest =>
      have hrl : rest.length ≤ n := by simpa using hl
      rw [foldLoop] at h
      by_cases h34 : (v == 34) = true
      · rw [if_pos h34] at h
        have hv : crlfB v = false := by
          have : v = 34 := by simpa using h34
          subst this
          rfl
        exact ih rest _ _ _ _ _ _ _ hrl (hInv.pendingStep hv) h
      · rw [if_neg h34] at h
        by_cases hstr : inStr = true
        · rw [if_pos hstr] at h
          by_cases hcr : crlfB v = true
          · rw [if_pos hcr] at h
            exact absurd h (by simp)
          · rw [if_neg hcr] at h
            exact ih rest _ _ _ _ _ _ _ hrl
              (hInv.pendingStep (by simpa using hcr)) h
        · rw [if_neg hstr] at h
          by_cases hcr : crlfB v = true
          · rw [if_pos hcr] at h
            cases hr : rest.dropWhile crlfB with
            | nil =>
              simp only [hr] at h
              by_cases hp : pending.isEmpty = true
              · rw [if_pos hp] at h
                by_cases hc : col ≠ 0
                · rw [if_pos hc, Option.some_inj] at h
                  subst h
                  obtain ⟨hfirst, hcur, _⟩ :=
                    hInv.pendingE (List.isEmpty_iff.mp hp)
                  have hl0 : lines = [] := hInv.firstLines hfirst
                  subst hl0
                  intro l hl'
                  simp at hl'
                · rw [if_neg hc, Option.some_inj] at h
                  subst h
                  exact hInv.goodClosed
              · rw [if_neg hp, Option.some_inj] at h
                subst h
                exact goodClosed_push hInv.goodClosed
                  (fun _ => Or.inr (Or.inl rfl))
            | cons w rest'' =>
              simp only [hr] at h
              have hw : crlfB w = false := by
                have := dropWhile_head?_not crlfB rest w
                rw [hr] at this
                exact this rfl
              have hrl'' : rest''.length ≤ n := by
                have h1 := dropWhile_length_le crlfB rest
                rw [hr] at h1
                simp only [List.length_cons] at h1
                omega
              by_cases hp : pending.isEmpty = true
              · rw [if_pos hp] at h
                have hpe : pending = [] := List.isEmpty_iff.mp hp
                subst hpe
                exact ih rest'' _ _ _ _ _ _ _ hrl''
                  (hInv.afterSkip hw) h
              · rw [if_neg hp] at h
                by_cases hwsp : (w == 32 || w == 9) = true
                · rw [if_pos hwsp] at h
                  exact ih rest'' _ _ _ _ _ _ _ hrl''
                    (hInv.afterEmbeddedWs hw) h
                · rw [if_neg hwsp] at h
                  exact ih rest'' _ _ _ _ _ _ _ hrl''
                    (hInv.afterEmbeddedTab hw) h
          · rw [if_neg hcr] at h
            by_cases hws : wsB v = true
            · rw [if_pos hws] at h
              simp only [] at h
              by_cases hp : pending.isEmpty = true
              · have hpe : pending = [] := List.isEmpty_iff.mp hp
                subst hpe
                have hfold : (decide (78 < col + List.length
                    ([] : List Nat)) && !first) = false := by
                  by_cases hf : first = true
                  · simp [hf]
                  · have : first = false := by
                      cases first
                      · rfl
                      · exact absurd rfl hf
                    obtain ⟨hfirst, _, _⟩ := hInv.pendingE rfl
                    rw [this] at hfirst
                    exact absurd hfirst (by simp)
                rw [hfold] at h
                simp only [Bool.false_eq_true, if_false, hp, if_pos rfl,
                  Bool.and_true] at h
                exact ih rest _ _ _ _ _ _ _ hrl (hInv.afterWsEmpty hws) h
              · have hpne : pending ≠ [] :=
                  fun he => hp (List.isEmpty_iff.mpr he)
                rw [if_neg hp] at h
                cases hfold : (decide (78 < col + pending.length)
                    && !first) with
                | true =>
                  rw [hfold] at h
                  simp only [if_true] at h
                  have hfirst : first = false := by
                    cases first
                    · rfl
                    · simp at hfold
                  rw [hfirst] at h
                  simp only [Bool.false_and] at h
                  exact ih rest _ _ _ _ _ _ _ hrl
                    (hInv.afterWrap hpne hws) h
                | false =>
                  rw [hfold] at h
                  simp only [Bool.false_eq_true, if_false] at h
                  have hok : col + pending.length ≤ 78 ∨ first = true := by
                    rcases Bool.and_eq_false_iff.mp hfold with h0 | h0
                    · left
                      have := of_decide_eq_false h0
                      omega
                    · right
                      cases first
                      · simp at h0
                      · rfl
                  have hfirst' : (first && pending.isEmpty) = false := by
                    simp [hp]
                  rw [hfirst'] at h
                  exact ih rest _ _ _ _ _ _ _ hrl
                    (hInv.afterFlush hpne hok hws) h
            · rw [if_neg hws] at h
              exact ih rest _ _ _ _ _ _ _ hrl
                (hInv.pendingStep (by simpa using hcr)) h

/-- The invariant at the entry of the scanning loop. -/
theorem foldInv_init (key : List Nat) :
    FoldInv (key ++ [58, 32]) [] [key ++ [58, 32]] (key.length + 2) []
      true :=
  { colEq := by simp
    goodClosed := by intro l hl; simp at hl
    curOK := Or.inl rfl
    firstLines := fun _ => rfl
    unitsNE := fun u hu => by
      rcases List.mem_singleton.mp hu with rfl
      simp
    pendingE := fun _ => ⟨rfl, rfl, by simp⟩
    pendingNoCRLF := fun b hb => by simp at hb }

/-- C1 (amended): every line emitted by `writeHeader` is at most 78 bytes
long before its CRLF, except possibly (a) the first line (which carries
the `Key: ` prefix and the first token, never split from it), (b) a line
closed at a caller-embedded CR/LF (such flushes bypass the column check),
and (c) a line consisting of a single flushed token, possibly preceded by
one carried byte, emitted unsplit. -/
theorem c1_line_discipline (or : Oracles) (o : Options') (t : HeaderType)
    (key value : List Nat) (ls : List Line)
    (h : writeHeader or o t key value = .ok ls) :
    ∀ l ∈ ls.drop 1, l.cause ≠ .embedded →
      l.content.length ≤ 78 ∨ ShapeTok l.units := by
  have hgood : ∀ l ∈ ls.drop 1, GoodLine l := by
    unfold writeHeader at h
    cases hprep : prepValue or o t (trimBytes value) with
    | error e =>
      simp only [hprep] at h
      exact absurd h (by simp)
    | ok v2 =>
      simp only [hprep] at h
      cases hwf : writeHeaderFrom key v2 with
      | none =>
        simp only [hwf] at h
        exact absurd h (by simp)
      | some ls' =>
        simp only [hwf] at h
        simp only [Except.ok.injEq] at h
        subst h
        unfold writeHeaderFrom at hwf
        by_cases hshort : v2.length + (key.length + 2) < 78
        · rw [if_pos hshort, Option.some_inj] at hwf
          subst hwf
          intro l hl
          simp at hl
        · rw [if_neg hshort] at hwf
          exact foldLoop_good (key ++ [58, 32]) v2.length v2 _ _ _ _ _ _ _
            le_rfl (foldInv_init key) hwf
  intro l hl hc
  rcases hgood l hl with h0 | h0 | h0
  · exact Or.inl h0
  · exact absurd h0 hc
  · exact Or.inr h0

/-- The value of the C1 counterexample: a 75-byte first token, then a
2-byte token. -/
def c1CexValue : List Nat := List.replicate 75 97 ++ str " x"

/-- The output on the C1 counterexample. -/
def c1CexOut : List Nat :=
  str "Subject: " ++ List.replicate 75 97 ++ str "\r\n x\r\n"

/-- Split a byte stream into its CRLF-terminated lines. -/
def splitCRLF : List Nat → List (List Nat)
  | [] => [[]]
  | 13 :: 10 :: rest => [] :: splitCRLF rest
  | c :: rest =>
    match splitCRLF rest with
    | x :: xs => (c :: x) :: xs
    | [] => [[c]]

/-- Split on a byte class, keeping the separated pieces. -/
def splitP (p : Nat → Bool) : List Nat → List (List Nat)
  | [] => [[]]
  | c :: rest =>
    if p c then [] :: splitP p rest
    else
      match splitP p rest with
      | x :: xs => (c :: x) :: xs
      | [] => [[c]]

/-- The whitespace-delimited tokens of a byte string (whitespace here:
the scanner's whitespace and CR/LF). -/
def wsTokens (v : List Nat) : List (List Nat) :=
  (splitP (fun b => wsB b || crlfB b) v).filter (fun t => !t.isEmpty)

/-- Counterexample for C1: on key `Subject` and a value whose first token
has 75 bytes, the first emitted line is `Subject: ` + 75 bytes = 84 bytes
long, although no whitespace-delimited token of the value or of any
output line exceeds 78 bytes (the fold check is skipped for the first
token, `tokenStart != 0`). -/
theorem c1_line_counterexample :
    writeHeaderBytes trivialOracles {} .opq (str "Subject") c1CexValue =
        .ok c1CexOut ∧
      (∃ l ∈ splitCRLF c1CexOut, 78 < l.length) ∧
      (∀ t ∈ wsTokens c1CexValue, t.length ≤ 78) ∧
      (∀ l ∈ splitCRLF c1CexOut, ∀ t ∈ wsTokens l, t.length ≤ 78) := by
  refine ⟨by rfl, by decide, by decide, by decide⟩

/-- The structured output on the C1 counterexample. -/
def c1CexLines : List Line :=
  [⟨[str "Subject: ", List.replicate 75 97], .wrap⟩,
    ⟨[[32, 120]], .last⟩]

/-- Witness for C1 at a concrete input: the amended discipline holds for
the second line of the counterexample output. -/
theorem c1_line_discipline_witness :
    (Line.mk [[32, 120]] .last).content.length ≤ 78 ∨
      ShapeTok [[32, 120]] :=
  c1_line_discipline trivialOracles {} .opq (str "Subject") c1CexValue
    c1CexLines (by rfl) ⟨[[32, 120]], .last⟩ (by decide) (by decide)

/-! ### C2: the terminating CRLF and the continuation-line whitespace -/

/-- A byte string that begins with one of the scanner's whitespace
bytes. -/
def HeadWS (c : List Nat) : Prop := ∃ b, c.head? = some b ∧ wsB b = true

/-- A byte string ending in exactly one CRLF: it is `u ++ CRLF` where `u`
does not end in a CR or LF byte. -/
def EndsOneCRLF (bs : List Nat) : Prop :=
  ∃ u, bs = u ++ [13, 10] ∧ ∀ b, u.getLast? = some b → crlfB b = false

theorem getLast?_append_right {α : Type} {l1 l2 : List α} (h : l2 ≠ []) :
    (l1 ++ l2).getLast? = l2.getLast? := by
  induction l1 with
  | nil => rfl
  | cons a t ih =>
    rw [List.cons_append, List.getLast?_cons, ih]
    cases l2 with
    | nil => exact absurd rfl h
    | cons b t2 => simp [List.getLast?_cons]

theorem mem_of_getLast? {α : Type} {l : List α} {a : α}
    (h : l.getLast? = some a) : a ∈ l := by
  induction l with
  | nil => simp at h
  | cons b t ih =>
    cases ht : t with
    | nil =>
      subst ht
      simp only [List.getLast?_singleton, Option.some_inj] at h
      subst h
      exact List.mem_singleton_self _
    | cons c t' =>
      rw [ht] at ih
      rw [List.getLast?_cons, ht] at h
      simp only [List.getLast?_cons] at ih h
      exact List.mem_cons_of_mem _ (ih h)

/-- The properties of the last emitted line: nonempty content that does
not end in CR or LF. -/
def LastLineOK (ls : List Line) : Prop :=
  ∃ ls' l, ls = ls' ++ [l] ∧ l.content ≠ [] ∧
    ∀ b, l.content.getLast? = some b → crlfB b = false

theorem lastLineOK_cur_pending {lines : List Line}
    {cur : List (List Nat)} {pending : List Nat} {c : Cause}
    (hpne : pending ≠ [])
    (hnc : ∀ b ∈ pending, crlfB b = false) :
    LastLineOK (lines ++ [⟨cur ++ [pending], c⟩]) := by
  refine ⟨lines, _, rfl, ?_, ?_⟩
  · simp only [Line.content, List.flatten_append, List.flatten_cons,
      List.flatten_nil, List.append_nil, ne_eq, List.append_eq_nil]
    intro ⟨_, hp⟩
    exact hpne hp
  · intro b hb
    apply hnc
    apply mem_of_getLast?
    rw [Line.content, List.flatten_append, List.flatten_cons,
      List.flatten_nil, List.append_nil, getLast?_append_right hpne] at hb
    exact hb

theorem foldFinish_last {pfx : List Nat} (hpfx : pfx.getLast? = some 32)
    {lines : List Line} {cur : List (List Nat)} {col : Nat}
    {pending : List Nat} {first : Bool}
    (hInv : FoldInv pfx lines cur col pending first) {ls : List Line}
    (h : foldFinish lines cur col pending first = some ls) :
    LastLineOK ls := by
  have hpfxne : pfx ≠ [] := by
    intro he
    rw [he] at hpfx
    simp at hpfx
  unfold foldFinish at h
  by_cases hp : pending.isEmpty
  · rw [if_pos hp] at h
    obtain ⟨hfirst, hcur, hcol⟩ := hInv.pendingE (List.isEmpty_iff.mp hp)
    have hc : col ≠ 0 := by
      rw [hcol]
      intro he
      exact hpfxne (List.length_eq_zero.mp he)
    rw [if_pos hc, Option.some_inj] at h
    subst h
    subst hcur
    refine ⟨lines, _, rfl, ?_, ?_⟩
    · simp only [Line.content, List.flatten_cons, List.flatten_nil,
        List.append_nil]
      exact hpfxne
    · intro b hb
      simp only [Line.content, List.flatten_cons, List.flatten_nil,
        List.append_nil] at hb
      rw [hpfx] at hb
      rcases Option.some_inj.mp hb with rfl
      rfl
  · rw [if_neg hp] at h
    have hpne : pending ≠ [] := fun he => hp (List.isEmpty_iff.mpr he)
    by_cases hq : 78 < col + pending.length ∧ first = false ∧ 1 < col
    · rw [if_pos hq, Option.some_inj] at h
      subst h
      have : lines ++ [⟨cur, .wrap⟩, ⟨[pending], .last⟩] =
          (lines ++ [⟨cur, .wrap⟩]) ++ [⟨[pending], .last⟩] := by simp
      rw [this]
      refine ⟨lines ++ [⟨cur, .wrap⟩], _, rfl, ?_, ?_⟩
      · simp only [Line.content, List.flatten_cons, List.flatten_nil,
          List.append_nil]
        exact hpne
      · intro b hb
        simp only [Line.content, List.flatten_cons, List.flatten_nil,
          List.append_nil] at hb
        exact hInv.pendingNoCRLF b (mem_of_getLast? hb)
    · rw [if_neg hq, Option.some_inj] at h
      subst h
      exact lastLineOK_cur_pending hpne hInv.pendingNoCRLF

theorem foldLoop_last (pfx : List Nat) (hpfx : pfx.getLast? = some 32) :
    ∀ (n : Nat) (rest : List Nat) (lines : List Line)
      (cur : List (List Nat)) (col : Nat) (pending : List Nat)
      (first inStr : Bool) (ls : List Line),
      rest.length ≤ n →
      FoldInv pfx lines cur col pending first →
      foldLoop lines cur col pending first inStr n rest = some ls →
      LastLineOK ls := by
  intro n
  induction n with
  | zero =>
    intro rest lines cur col pending first inStr ls hl hInv h
    have hrest : rest = [] := List.length_eq_zero.mp (Nat.le_zero.mp hl)
    subst hrest
    exact foldFinish_last hpfx hInv h
  | succ n ih =>
    intro rest lines cur col pending first inStr ls hl hInv h
    cases rest with
    | nil => exact foldFinish_last hpfx hInv h
    | cons v rest =>
      have hrl : rest.length ≤ n := by simpa using hl
      rw [foldLoop] at h
      by_cases h34 : (v == 34) = true
      · rw [if_pos h34] at h
        have hv : crlfB v = false := by
          have : v = 34 := by simpa using h34
          subst this
          rfl
        exact ih rest _ _ _ _ _ _ _ hrl (hInv.pendingStep hv) h
      · rw [if_neg h34] at h
        by_cases hstr : inStr = true
        · rw [if_pos hstr] at h
          by_cases hcr : crlfB v = true
          · rw [if_pos hcr] at h
            exact absurd h (by simp)
          · rw [if_neg hcr] at h
            exact ih rest _ _ _ _ _ _ _ hrl
              (hInv.pendingStep (by simpa using hcr)) h
        · rw [if_neg hstr] at h
          by_cases hcr : crlfB v = true
          · rw [if_pos hcr] at h
            cases hr : rest.dropWhile crlfB with
            | nil =>
              simp only [hr] at h
              by_cases hp : pending.isEmpty = true
              · rw [if_pos hp] at h
                obtain ⟨hfirst, hcur, hcol⟩ :=
                  hInv.pendingE (List.isEmpty_iff.mp hp)
                have hpfxne : pfx ≠ [] := by
                  intro he
                  rw [he] at hpfx
                  simp at hpfx
                have hc : col ≠ 0 := by
                  rw [hcol]
                  intro he
                  exact hpfxne (List.length_eq_zero.mp he)
                rw [if_pos hc, Option.some_inj] at h
                subst h
                subst hcur
                refine ⟨lines, _, rfl, ?_, ?_⟩
                · simp only [Line.content, List.flatten_cons,
                    List.flatten_nil, List.append_nil]
                  exact hpfxne
                · intro b hb
                  simp only [Line.content, List.flatten_cons,
                    List.flatten_nil, List.append_nil] at hb
                  rw [hpfx] at hb
                  rcases Option.some_inj.mp hb with rfl
                  rfl
              · rw [if_neg hp, Option.some_inj] at h
                subst h
                exact lastLineOK_cur_pending
                  (fun he => hp (List.isEmpty_iff.mpr he))
                  hInv.pendingNoCRLF
            | cons w rest'' =>
              simp only [hr] at h
              have hw : crlfB w = false := by
                have := dropWhile_head?_not crlfB rest w
                rw [hr] at this
                exact this rfl
              have hrl'' : rest''.length ≤ n := by
                have h1 := dropWhile_length_le crlfB rest
                rw [hr] at h1
                simp only [List.length_cons] at h1
                omega
              by_cases hp : pending.isEmpty = true
              · rw [if_pos hp] at h
                have hpe : pending = [] := List.isEmpty_iff.mp hp
                subst hpe
                exact ih rest'' _ _ _ _ _ _ _ hrl'' (hInv.afterSkip hw) h
              · rw [if_neg hp] at h
                by_cases hwsp : (w == 32 || w == 9) = true
                · rw [if_pos hwsp] at h
                  exact ih rest'' _ _ _ _ _ _ _ hrl''
                    (hInv.afterEmbeddedWs hw) h
                · rw [if_neg hwsp] at h
                  exact ih rest'' _ _ _ _ _ _ _ hrl''
                    (hInv.afterEmbeddedTab hw) h
          · rw [if_neg hcr] at h
            by_cases hws : wsB v = true
            · rw [if_pos hws] at h
              simp only [] at h
              by_cases hp : pending.isEmpty = true
              · have hpe : pending = [] := List.isEmpty_iff.mp hp
                subst hpe
                have hfold : (decide (78 < col + List.length
                    ([] : List Nat)) && !first) = false := by
                  by_cases hf : first = true
                  · simp [hf]
                  · have : first = false := by
                      cases first
                      · rfl
                      · exact absurd rfl hf
                    obtain ⟨hfirst, _, _⟩ := hInv.pendingE rfl
                    rw [this] at hfirst
                    exact absurd hfirst (by simp)
                rw [hfold] at h
                simp only [Bool.false_eq_true, if_false, hp, if_pos rfl,
                  Bool.and_true] at h
                exact ih rest _ _ _ _ _ _ _ hrl (hInv.afterWsEmpty hws) h
              · have hpne : pending ≠ [] :=
                  fun he => hp (List.isEmpty_iff.mpr he)
                rw [if_neg hp] at h
                cases hfold : (decide (78 < col + pending.length)
                    && !first) with
                | true =>
                  rw [hfold] at h
                  simp only [if_true] at h
                  have hfirst : first = false := by
                    cases first
                    · rfl
                    · simp at hfold
                  rw [hfirst] at h
                  simp only [Bool.false_and] at h
                  exact ih rest _ _ _ _ _ _ _ hrl
                    (hInv.afterWrap hpne hws) h
                | false =>
                  rw [hfold] at h
                  simp only [Bool.false_eq_true, if_false] at h
                  have hok : col + pending.length ≤ 78 ∨ first = true := by
                    rcases Bool.and_eq_false_iff.mp hfold with h0 | h0
                    · left
                      have := of_decide_eq_false h0
                      omega
                    · right
                      cases first
                      · simp at h0
                      · rfl
                  have hfirst' : (first && pending.isEmpty) = false := by
                    simp [hp]
                  rw [hfirst'] at h
                  exact ih rest _ _ _ _ _ _ _ hrl
                    (hInv.afterFlush hpne hok hws) h
            · rw [if_neg hws] at h
              exact ih rest _ _ _ _ _ _ _ hrl
                (hInv.pendingStep (by simpa using hcr)) h

theorem headWS_append_left {a b : List Nat} (h : HeadWS a) :
    HeadWS (a ++ b) := by
  obtain ⟨c, hc, hw⟩ := h
  cases a with
  | nil => simp at hc
  | cons x t =>
    simp only [List.head?_cons, Option.some_inj] at hc
    subst hc
    exact ⟨x, rfl, hw⟩

/-- When the value holds no CR/LF bytes, every line beyond the first
begins with a whitespace byte.  The extra conditions: every closed line
beyond the first begins with whitespace; once a line has been closed, the
current line begins with whitespace; after the first flush, the pending
token begins with whitespace. -/
theorem foldLoop_ws (pfx : List Nat) :
    ∀ (n : Nat) (rest : List Nat) (lines : List Line)
      (cur : List (List Nat)) (col : Nat) (pending : List Nat)
      (first inStr : Bool) (ls : List Line),
      rest.length ≤ n →
      FoldInv pfx lines cur col pending first →
      (∀ b ∈ rest, crlfB b = false) →
      (∀ l ∈ lines.drop 1, HeadWS l.content) →
      (lines ≠ [] → HeadWS cur.flatten) →
      (first = false → pending ≠ [] → HeadWS pending) →
      foldLoop lines cur col pending first inStr n rest = some ls →
      ∀ l ∈ ls.drop 1, HeadWS l.content := by
  have finish : ∀ {lines : List Line} {cur : List (List Nat)} {col : Nat}
      {pending : List Nat} {first : Bool} {ls : List Line},
      FoldInv pfx lines cur col pending first →
      (∀ l ∈ lines.drop 1, HeadWS l.content) →
      (lines ≠ [] → HeadWS cur.flatten) →
      (first = false → pending ≠ [] → HeadWS pending) →
      foldFinish lines cur col pending first = some ls →
      ∀ l ∈ ls.drop 1, HeadWS l.content := by
    intro lines cur col pending first ls hInv hcl hcur hpw h
    unfold foldFinish at h
    by_cases hp : pending.isEmpty
    · rw [if_pos hp] at h
      by_cases hc : col ≠ 0
      · rw [if_pos hc, Option.some_inj] at h
        subst h
        obtain ⟨hfirst, _, _⟩ := hInv.pendingE (List.isEmpty_iff.mp hp)
        have hl0 : lines = [] := hInv.firstLines hfirst
        subst hl0
        intro l hl
        simp at hl
      · rw [if_neg hc, Option.some_inj] at h
        subst h
        exact hcl
    · rw [if_neg hp] at h
      have hpne : pending ≠ [] := fun he => hp (List.isEmpty_iff.mpr he)
      by_cases hq : 78 < col + pending.length ∧ first = false ∧ 1 < col
      · rw [if_pos hq, Option.some_inj] at h
        subst h
        refine goodClosed_push2 hcl hcur ?_
        have := hpw hq.2.1 hpne
        simpa [Line.content] using this
      · rw [if_neg hq, Option.some_inj] at h
        subst h
        refine goodClosed_push hcl ?_
        intro hne
        have h1 := hcur hne
        simp only [Line.content, List.flatten_append, List.flatten_cons,
          List.flatten_nil, List.append_nil]
        exact headWS_append_left h1
  intro n
  induction n with
  | zero =>
    intro rest lines cur col pending first inStr ls hl hInv hnc hcl hcur
      hpw h
    have hrest : rest = [] := List.length_eq_zero.mp (Nat.le_zero.mp hl)
    subst hrest
    exact finish hInv hcl hcur hpw h
  | succ n ih =>
    intro rest lines cur col pending first inStr ls hl hInv hnc hcl hcur
      hpw h
    cases rest with
    | nil => exact finish hInv hcl hcur hpw h
    | cons v rest =>
      have hrl : rest.length ≤ n := by simpa using hl
      have hnc' : ∀ b ∈ rest, crlfB b = false :=
        fun b hb => hnc b (List.mem_cons_of_mem _ hb)
      have hvnc : crlfB v = false := hnc v (List.mem_cons_self _ _)
      have hpw_app : ∀ w : Nat, first = false → pending ++ [w] ≠ [] →
          HeadWS (pending ++ [w]) := by
        intro w hf _
        have hpne : pending ≠ [] := by
          intro he
          obtain ⟨hfirst, _, _⟩ := hInv.pendingE he
          rw [hf] at hfirst
          exact absurd hfirst (by simp)
        exact headWS_append_left (hpw hf hpne)
      rw [foldLoop] at h
      by_cases h34 : (v == 34) = true
      · rw [if_pos h34] at h
        have hv : crlfB v = false := by
          have : v = 34 := by simpa using h34
          subst this
          rfl
        exact ih rest _ _ _ _ _ _ _ hrl (hInv.pendingStep hv) hnc' hcl hcur
          (hpw_app v) h
      · rw [if_neg h34] at h
        by_cases hstr : inStr = true
        · rw [if_pos hstr] at h
          rw [if_neg (by simp [hvnc] : ¬crlfB v = true)] at h
          exact ih rest _ _ _ _ _ _ _ hrl (hInv.pendingStep hvnc) hnc' hcl
            hcur (hpw_app v) h
        · rw [if_neg hstr] at h
          rw [if_neg (by simp [hvnc] : ¬crlfB v = true)] at h
          by_cases hws : wsB v = true
          · rw [if_pos hws] at h
            simp only [] at h
            by_cases hp : pending.isEmpty = true
            · have hpe : pending = [] := List.isEmpty_iff.mp hp
              subst hpe
              have hfold : (decide (78 < col + List.length
                  ([] : List Nat)) && !first) = false := by
                by_cases hf : first = true
                · simp [hf]
                · have : first = false := by
                    cases first
                    · rfl
                    · exact absurd rfl hf
                  obtain ⟨hfirst, _, _⟩ := hInv.pendingE rfl
                  rw [this] at hfirst
                  exact absurd hfirst (by simp)
              rw [hfold] at h
              simp only [Bool.false_eq_true, if_false, hp, if_pos rfl,
                Bool.and_true] at h
              refine ih rest _ _ _ _ _ _ _ hrl (hInv.afterWsEmpty hws) hnc'
                hcl hcur ?_ h
              intro _ _
              exact ⟨v, rfl, hws⟩
            · have hpne : pending ≠ [] :=
                fun he => hp (List.isEmpty_iff.mpr he)
              rw [if_neg hp] at h
              cases hfold : (decide (78 < col + pending.length)
                  && !first) with
              | true =>
                rw [hfold] at h
                simp only [if_true] at h
                have hfirst : first = false := by
                  cases first
                  · rfl
                  · simp at hfold
                rw [hfirst] at h
                simp only [Bool.false_and] at h
                refine ih rest _ _ _ _ _ _ _ hrl (hInv.afterWrap hpne hws)
                  hnc' (goodClosed_push hcl hcur) ?_ ?_ h
                · intro _
                  have := hpw hfirst hpne
                  simpa using this
                · intro _ _
                  exact ⟨v, rfl, hws⟩
              | false =>
                rw [hfold] at h
                simp only [Bool.false_eq_true, if_false] at h
                have hok : col + pending.length ≤ 78 ∨ first = true := by
                  rcases Bool.and_eq_false_iff.mp hfold with h0 | h0
                  · left
                    have := of_decide_eq_false h0
                    omega
                  · right
                    cases first
                    · simp at h0
                    · rfl
                have hfirst' : (first && pending.isEmpty) = false := by
                  simp [hp]
                rw [hfirst'] at h
                refine ih rest _ _ _ _ _ _ _ hrl
                  (hInv.afterFlush hpne hok hws) hnc' hcl ?_ ?_ h
                · intro hne
                  have h1 := hcur hne
                  simp only [List.flatten_append, List.flatten_cons,
                    List.flatten_nil, List.append_nil]
                  exact headWS_append_left h1
                · intro _ _
                  exact ⟨v, rfl, hws⟩
          · rw [if_neg hws] at h
            exact ih rest _ _ _ _ _ _ _ hrl (hInv.pendingStep hvnc) hnc'
              hcl hcur (hpw_app v) h

theorem crlfB_of_asciiSpaceB {b : Nat} (h : asciiSpaceB b = false) :
    crlfB b = false := by
  simp only [asciiSpaceB, Bool.or_eq_false_iff, beq_eq_false_iff_ne] at h
  simp only [crlfB, Bool.or_eq_false_iff, beq_eq_false_iff_ne]
  omega

theorem trimBytes_getLast?_not {v : List Nat} {b : Nat}
    (h : (trimBytes v).getLast? = some b) : asciiSpaceB b = false := by
  unfold trimBytes at h
  rw [List.getLast?_reverse] at h
  exact dropWhile_head?_not asciiSpaceB _ b h

theorem trimBytes_subset {v : List Nat} : ∀ b ∈ trimBytes v, b ∈ v := by
  intro b hb
  unfold trimBytes at hb
  rw [List.mem_reverse] at hb
  have h1 := (List.dropWhile_suffix asciiSpaceB).subset hb
  rw [List.mem_reverse] at h1
  exact (List.dropWhile_suffix asciiSpaceB).subset h1

theorem flattenLines_append_one (ls' : List Line) (l : Line) :
    flattenLines (ls' ++ [l]) =
      (flattenLines ls' ++ l.content) ++ [13, 10] := by
  simp [flattenLines]

/-- For the six pass-through semantic types, the prepared value is the
trimmed value itself. -/
theorem prepValue_passthrough (or : Oracles) (o : Options') {t : HeaderType}
    (ht : t = .opq ∨ t = .received ∨ t = .returnPath ∨ t = .date ∨
      t = .messageID ∨ t = .messageIDList) (v : List Nat) :
    prepValue or o t v = .ok v := by
  rcases ht with rfl | rfl | rfl | rfl | rfl | rfl <;> rfl

/-- C2 (amended): for every key, value and semantic type accepted by
`writeHeader`, writing in terms of the *prepared* value `v2` that the
code feeds to the folding scanner — the space-trimmed value, further
transformed for Unstructured/PhraseList (MIME Q-encoding of non-ASCII
values) and Mailbox/MailboxList (re-rendering through the address
parser): provided `v2` does not end in a CR or LF byte — automatic for
the six pass-through types and for ASCII (or `NoEscape`) unstructured
values, where `v2` is the trimmed value itself, and true of the real
external encoders — the emitted output ends with exactly one CRLF; and,
**when `v2` contains no CR or LF bytes at all**, every continuation line
begins with a whitespace byte of the scanner's class (space, tab,
vertical tab or form feed — possibly more than one, e.g. when
consecutive whitespace characters are flushed as one-byte tokens).
With caller-embedded CR/LF the short-value path copies the value
verbatim, so its continuation lines carry no folding whitespace. -/
theorem c2_crlf_discipline (or : Oracles) (o : Options') (t : HeaderType)
    (key value v2 : List Nat) (ls : List Line)
    (hprep : prepValue or o t (trimBytes value) = .ok v2)
    (htail : ∀ b, v2.getLast? = some b → crlfB b = false)
    (h : writeHeader or o t key value = .ok ls) :
    EndsOneCRLF (flattenLines ls) ∧
      (v2.all (fun b => !crlfB b) = true →
        ∀ l ∈ ls.drop 1, HeadWS l.content) := by
  unfold writeHeader at h
  rw [hprep] at h
  cases hwf : writeHeaderFrom key v2 with
  | none =>
    simp only [hwf] at h
    exact absurd h (by simp)
  | some ls' =>
    simp only [hwf] at h
    simp only [Except.ok.injEq] at h
    subst h
    unfold writeHeaderFrom at hwf
    by_cases hshort : v2.length + (key.length + 2) < 78
    · rw [if_pos hshort, Option.some_inj] at hwf
      subst hwf
      constructor
      · by_cases hv2 : v2.isEmpty = true
        · rw [if_pos hv2]
          refine ⟨key ++ [58, 32], by simp [flattenLines, Line.content], ?_⟩
          intro b hb
          rw [getLast?_append_right (by simp)] at hb
          simp only [List.getLast?_cons, List.getLast?_singleton] at hb
          rcases Option.some_inj.mp hb with rfl
          rfl
        · rw [if_neg hv2]
          have hne : v2 ≠ [] :=
            fun he => hv2 (List.isEmpty_iff.mpr he)
          refine ⟨(key ++ [58, 32]) ++ v2,
            by simp [flattenLines, Line.content], ?_⟩
          intro b hb
          rw [getLast?_append_right hne] at hb
          exact htail b hb
      · intro _ l hl
        by_cases hv2 : v2.isEmpty = true
        · rw [if_pos hv2] at hl
          simp at hl
        · rw [if_neg hv2] at hl
          simp at hl
    · rw [if_neg hshort] at hwf
      constructor
      · have hlast := foldLoop_last (key ++ [58, 32])
          (by rw [getLast?_append_right (by simp)]; rfl)
          v2.length v2 _ _ _ _ _ _ _
          le_rfl (foldInv_init key) hwf
        obtain ⟨ls'', l, rfl, hne, hnc⟩ := hlast
        rw [flattenLines_append_one]
        refine ⟨flattenLines ls'' ++ l.content, rfl, ?_⟩
        intro b hb
        rw [getLast?_append_right hne] at hb
        exact hnc b hb
      · intro hval
        have hnc : ∀ b ∈ v2, crlfB b = false := by
          intro b hb
          have := List.all_eq_true.mp hval b hb
          simpa using this
        exact foldLoop_ws (key ++ [58, 32]) v2.length
          v2 _ _ _ _ _ _ _ le_rfl (foldInv_init key) hnc
          (by intro l hl; simp at hl)
          (fun hne => absurd rfl hne)
          (fun hf => by simp at hf) hwf

/-- Counterexample for C2, refuting the continuation-whitespace clause in
the three ways the code deviates: a short value with caller-embedded CRLF
is copied verbatim, so the continuation line `b` starts with no
whitespace; a fold in front of consecutive spaces produces a continuation
line starting with **two** spaces; and a vertical-tab token separator
produces a continuation line starting with `\v`, which is neither a space
nor a tab. -/
theorem c2_crlf_counterexample :
    (writeHeaderBytes trivialOracles {} .opq (str "Subject")
        (str "a\r\nb") = .ok (str "Subject: a\r\nb\r\n") ∧
      splitCRLF (str "Subject: a\r\nb\r\n") =
        [str "Subject: a", str "b", []] ∧
      (∀ b, (str "b").head? = some b → wsB b = false)) ∧
    (writeHeaderBytes trivialOracles {} .opq (str "Subject")
        (List.replicate 80 97 ++ str "  " ++ List.replicate 77 98) =
      .ok (str "Subject: " ++ List.replicate 80 97 ++ str "\r\n" ++
        [32, 32] ++ List.replicate 77 98 ++ str "\r\n")) ∧
    (writeHeaderBytes trivialOracles {} .opq (str "Subject")
        (List.replicate 80 97 ++ [11] ++ List.replicate 5 98) =
      .ok (str "Subject: " ++ List.replicate 80 97 ++ str "\r\n" ++
        [11] ++ List.replicate 5 98 ++ str "\r\n")) := by
  exact ⟨⟨by rfl, by rfl, by decide⟩, by rfl, by rfl⟩

/-- The value of the C2 witness. -/
def c2WitValue : List Nat := List.replicate 80 97 ++ str " yy"

/-- The structured output on the C2 witness input. -/
def c2WitLines : List Line :=
  [⟨[str "Subject: ", List.replicate 80 97], .wrap⟩,
    ⟨[[32, 121, 121]], .last⟩]

/-- Witness for C2 at a concrete input of Unstructured type (an ASCII
`Subject` value, so the prepared value is the trimmed value itself): the
output ends in exactly one CRLF and the single continuation line begins
with a whitespace byte. -/
theorem c2_crlf_discipline_witness :
    EndsOneCRLF (flattenLines c2WitLines) ∧
      HeadWS (Line.content ⟨[[32, 121, 121]], .last⟩) := by
  have h := c2_crlf_discipline trivialOracles {} .unstructured
    (str "Subject") c2WitValue c2WitValue c2WitLines (by rfl)
    (by
      intro b hb
      rw [show c2WitValue.getLast? = some 121 from rfl,
        Option.some_inj] at hb
      subst hb
      rfl)
    (by rfl)
  exact ⟨h.1, h.2 (by decide) _ (by decide)⟩

end OrderedHeaders
